import Mathlib

set_option maxHeartbeats 1000000

/-! Shallow embedding of the trie autocomplete engine in src/trie.py.
Words are lists of characters; weights are modelled as integers (the code
only stores and compares them); the Python dict of children is modelled
as an insertion-ordered association list with unique keys. -/

/-- A node of the trie: insertion-ordered children map, terminal flag,
stored weight (`freq`). Mirrors class TrieNode in src/trie.py. -/
inductive TrieNode : Type where
  | mk (children : List (Char × TrieNode)) (is_word : Bool) (freq : Int)

def TrieNode.children : TrieNode → List (Char × TrieNode)
  | .mk cs _ _ => cs

def TrieNode.is_word : TrieNode → Bool
  | .mk _ w _ => w

def TrieNode.freq : TrieNode → Int
  | .mk _ _ f => f

/-- Lookup in the children map (Python `ch in node.children` /
`node.children[ch]`): the first binding of the key. -/
def assocFind (c : Char) : List (Char × TrieNode) → Option TrieNode
  | [] => none
  | (c', t) :: rest => if c' = c then some t else assocFind c rest

/-- Replace the value bound to a key in place (Python dict assignment to an
existing key keeps its position). -/
def assocSet (c : Char) (v : TrieNode) : List (Char × TrieNode) → List (Char × TrieNode)
  | [] => []
  | (c', t) :: rest => if c' = c then (c', v) :: rest else (c', t) :: assocSet c v rest

/-- Delete a key from the children map (Python `del node.children[ch]`). -/
def assocErase (c : Char) : List (Char × TrieNode) → List (Char × TrieNode)
  | [] => []
  | (c', t) :: rest => if c' = c then rest else (c', t) :: assocErase c rest

/-- Walk the trie along a word; `some` of the node reached, or `none` if a
symbol is missing.  Mirrors `Trie._trace` (the path list is recovered by the
recursion structure where needed). -/
def findNode : TrieNode → List Char → Option TrieNode
  | n, [] => some n
  | n, c :: cs =>
    match assocFind c n.children with
    | none => none
    | some child => findNode child cs

/-- One step of `Trie.insert`: returns the rewritten subtree, the number of
nodes created, and whether a new terminal was made.  Mirrors the loop in
`Trie.insert` plus the final flag/weight update. -/
def insertAux (fr : Int) : TrieNode → List Char → TrieNode × Nat × Bool
  | .mk cs w _, [] => (.mk cs true fr, 0, !w)
  | .mk cs w f, c :: rest =>
    match assocFind c cs with
    | some child =>
      let r := insertAux fr child rest
      (.mk (assocSet c r.1 cs) w f, r.2.1, r.2.2)
    | none =>
      let r := insertAux fr (.mk [] false 0) rest
      (.mk (cs ++ [(c, r.1)]) w f, r.2.1 + 1, r.2.2)

/-- One step of `Trie.remove`: `none` when the word is absent or not
terminal (no state change); otherwise the rewritten subtree and the number
of nodes pruned.  The bottom-up pruning loop of the Python code is realised
by the decision, on the way back up, of whether the updated child became a
non-terminal leaf. -/
def removeAux : TrieNode → List Char → Option (TrieNode × Nat)
  | .mk cs w _, [] => if w then some (.mk cs false 0, 0) else none
  | .mk cs w f, c :: rest =>
    match assocFind c cs with
    | none => none
    | some child =>
      match removeAux child rest with
      | none => none
      | some (child', d) =>
        if child'.children.isEmpty && !child'.is_word then
          some (.mk (assocErase c cs) w f, d + 1)
        else
          some (.mk (assocSet c child' cs) w f, d)

/-- The index: root node plus the two running counters of src/trie.py. -/
structure Trie where
  root : TrieNode
  total_words : Int
  total_nodes : Int

/-- A fresh index (`Trie.__init__`): empty root, zero words, one node. -/
def Trie.new : Trie := ⟨.mk [] false 0, 0, 1⟩

/-- `Trie.insert`: insert or update a word with its weight. -/
def Trie.insert (t : Trie) (w : List Char) (fr : Int) : Trie :=
  let r := insertAux fr t.root w
  ⟨r.1, t.total_words + (if r.2.2 then 1 else 0), t.total_nodes + (r.2.1 : Int)⟩

/-- `Trie.remove`: remove a word if present; returns the new index and the
boolean result. -/
def Trie.remove (t : Trie) (w : List Char) : Trie × Bool :=
  match removeAux t.root w with
  | none => (t, false)
  | some (r, d) => (⟨r, t.total_words - 1, t.total_nodes - (d : Int)⟩, true)

/-- `Trie.contains`: exact-match lookup. -/
def Trie.contains (t : Trie) (w : List Char) : Bool :=
  match findNode t.root w with
  | none => false
  | some n => n.is_word

mutual
/-- Number of nodes of a subtree (used to state invariant I1). -/
def countNodes : TrieNode → Nat
  | .mk cs _ _ => 1 + countNodesL cs
def countNodesL : List (Char × TrieNode) → Nat
  | [] => 0
  | (_, t) :: rest => countNodes t + countNodesL rest
end

mutual
/-- Number of terminal nodes of a subtree (used to state invariant I2). -/
def countWords : TrieNode → Nat
  | .mk cs w _ => (if w then 1 else 0) + countWordsL cs
def countWordsL : List (Char × TrieNode) → Nat
  | [] => 0
  | (_, t) :: rest => countWords t + countWordsL rest
end

/-- Insert a child binding into a key-sorted list of bindings. -/
def insKid (p : Char × TrieNode) : List (Char × TrieNode) → List (Char × TrieNode)
  | [] => [p]
  | q :: rest => if p.1 < q.1 then p :: q :: rest else q :: insKid p rest

/-- `sorted(node.children.keys())`: the children bindings in ascending key
order (insertion sort; keys are unique in any reachable trie). -/
def sortedKids : List (Char × TrieNode) → List (Char × TrieNode)
  | [] => []
  | p :: rest => insKid p (sortedKids rest)

/-- Python string comparison `<` on words (lexicographic on code points). -/
def strLt : List Char → List Char → Bool
  | [], [] => false
  | [], _ :: _ => true
  | _ :: _, [] => false
  | a :: as, b :: bs => if a < b then true else if b < a then false else strLt as bs

/-- Python tuple comparison `(freq, word) < (freq, word)` used by the heap. -/
def itemLt (x y : Int × List Char) : Bool :=
  if x.1 < y.1 then true else if y.1 < x.1 then false else strLt x.2 y.2

/-- The minimum of the heap contents under the tuple order (`heap[0]`). -/
def heapMin : Int × List Char → List (Int × List Char) → Int × List Char
  | m, [] => m
  | m, x :: xs => heapMin (if itemLt x m then x else m) xs

/-- `heapq.heappushpop(heap, item)` at the level of heap contents: on a
non-empty heap whose minimum is below the new item, the minimum is replaced
by the item; otherwise the heap is unchanged. -/
def heapPushPop (heap : List (Int × List Char)) (it : Int × List Char) :
    List (Int × List Char) :=
  match heap with
  | [] => []
  | x :: xs =>
    let m := heapMin x xs
    if itemLt m it then it :: (x :: xs).erase m else x :: xs

/-- One discovered terminal word offered to the bounded candidate set
(the body of `dfs` in `Trie.complete` acting on the heap). -/
def heapStep (k : Int) (heap : List (Int × List Char)) (it : Int × List Char) :
    List (Int × List Char) :=
  if (heap.length : Int) < k then it :: heap else heapPushPop heap it

mutual
/-- The sequence of `(freq, word)` items offered to the candidate set by the
depth-first traversal of `Trie.complete`, children visited in ascending key
order. -/
def collect : TrieNode → List Char → List (Int × List Char)
  | .mk cs w f, built =>
    (if w then [(f, built)] else []) ++ collectL (sortedKids cs) built
  termination_by n _ => sizeOf n
  decreasing_by
    have hins : ∀ (p : Char × TrieNode) (l : List (Char × TrieNode)),
        sizeOf (insKid p l) = sizeOf (p :: l) := by
      intro p l
      induction l with
      | nil => simp [insKid]
      | cons q rest ih =>
        simp only [insKid]
        split
        · rfl
        · simp only [List.cons.sizeOf_spec] at *
          omega
    have hsort : ∀ l : List (Char × TrieNode), sizeOf (sortedKids l) = sizeOf l := by
      intro l
      induction l with
      | nil => rfl
      | cons q rest ih =>
        simp only [sortedKids, hins, List.cons.sizeOf_spec]
        omega
    simp only [TrieNode.mk.sizeOf_spec, hsort]
    omega
def collectL : List (Char × TrieNode) → List Char → List (Int × List Char)
  | [], _ => []
  | (c, t) :: rest, built => collect t (built ++ [c]) ++ collectL rest built
  termination_by l _ => sizeOf l
  decreasing_by
    · simp only [List.cons.sizeOf_spec, Prod.mk.sizeOf_spec]
      omega
    · simp only [List.cons.sizeOf_spec]
      omega
end

/-- The output ordering of `Trie.complete`: ascending in the Python sort key
`(-freq, word)`, i.e. descending weight then ascending word. -/
def rankLtB (a b : Int × List Char) : Bool :=
  if b.1 < a.1 then true else if a.1 < b.1 then false else strLt a.2 b.2

/-- Insert into a list sorted by `rankLtB`. -/
def insRank (a : Int × List Char) : List (Int × List Char) → List (Int × List Char)
  | [] => [a]
  | b :: rest => if rankLtB a b then a :: b :: rest else b :: insRank a rest

/-- `sorted(heap, key=lambda x: (-x[0], x[1]))`. -/
def sortItems : List (Int × List Char) → List (Int × List Char)
  | [] => []
  | a :: rest => insRank a (sortItems rest)

/-- `Trie.complete`: up to `k` words starting with the given prefix, chosen
through the bounded heap and sorted by descending weight then ascending
word. -/
def Trie.complete (t : Trie) (pre : List Char) (k : Int) : List (List Char) :=
  match findNode t.root pre with
  | none => []
  | some n => (sortItems ((collect n pre).foldl (heapStep k) [])).map (fun q => q.2)

mutual
/-- `gather` in `Trie.items`: all `(word, freq)` pairs, children visited in
dict (insertion) order. -/
def itemsAux : TrieNode → List Char → List (List Char × Int)
  | .mk cs w f, pre => (if w then [(pre, f)] else []) ++ itemsL cs pre
def itemsL : List (Char × TrieNode) → List Char → List (List Char × Int)
  | [], _ => []
  | (c, t) :: rest, pre => itemsAux t (pre ++ [c]) ++ itemsL rest pre
end

/-- `Trie.items`. -/
def Trie.items (t : Trie) : List (List Char × Int) := itemsAux t.root []

mutual
/-- `height` in `Trie.stats`: edges on the longest downward path. -/
def heightN : TrieNode → Nat
  | .mk cs _ _ => if cs.isEmpty then 0 else 1 + heightL cs
def heightL : List (Char × TrieNode) → Nat
  | [] => 0
  | (_, t) :: rest => max (heightN t) (heightL rest)
end

/-- `Trie.stats`: `(num_words, height, num_nodes)`. -/
def Trie.stats (t : Trie) : Int × Nat × Int :=
  (t.total_words, heightN t.root, t.total_nodes)

/-- Keys of a children map are pairwise distinct (a Python dict guarantee,
an invariant of the embedding). -/
def keysNodup : List (Char × TrieNode) → Bool
  | [] => true
  | (c, _) :: rest => (assocFind c rest).isNone && keysNodup rest

mutual
/-- Well-formedness of the embedding: every children map has distinct keys. -/
def wfN : TrieNode → Bool
  | .mk cs _ _ => keysNodup cs && wfL cs
def wfL : List (Char × TrieNode) → Bool
  | [] => true
  | (_, t) :: rest => wfN t && wfL rest
end

mutual
/-- Invariant I3 on a subtree: a node with no children is terminal, and the
same holds everywhere below. -/
def goodN : TrieNode → Bool
  | .mk cs w _ => (!cs.isEmpty || w) && goodL cs
def goodL : List (Char × TrieNode) → Bool
  | [] => true
  | (_, t) :: rest => goodN t && goodL rest
end

/-- States of the index reachable from a fresh index by the two mutating
operations. -/
inductive Reachable : Trie → Prop where
  | init : Reachable Trie.new
  | ins (t : Trie) (w : List Char) (f : Int) : Reachable t → Reachable (t.insert w f)
  | rem (t : Trie) (w : List Char) : Reachable t → Reachable ((t.remove w).1)

mutual
/-- The tree with every stored weight erased: captures the node set, the
children maps and the terminal flags, used to state frame conditions. -/
def stripFreq : TrieNode → TrieNode
  | .mk cs w _ => .mk (stripFreqL cs) w 0
def stripFreqL : List (Char × TrieNode) → List (Char × TrieNode)
  | [] => []
  | (c, t) :: rest => (c, stripFreq t) :: stripFreqL rest
end

/-- The observable fate of one word in the index: whether its node exists,
whether it is terminal, and its stored weight. -/
def wordObs (n : TrieNode) (w : List Char) : Option (Bool × Int) :=
  (findNode n w).map (fun m => (m.is_word, m.freq))

/-- The weight the index stores for a word (0 when absent). -/
def freqOf (t : Trie) (w : List Char) : Int :=
  ((findNode t.root w).map TrieNode.freq).getD 0

/-- The number of stored words having a given prefix: the terminal nodes of
the subtree rooted at the prefix node (0 when no node matches). -/
def matchCount (t : Trie) (p : List Char) : Nat :=
  ((findNode t.root p).map countWords).getD 0

@[simp] theorem TrieNode.children_mk (cs : List (Char × TrieNode)) (w : Bool) (f : Int) :
    (TrieNode.mk cs w f).children = cs := rfl

@[simp] theorem TrieNode.is_word_mk (cs : List (Char × TrieNode)) (w : Bool) (f : Int) :
    (TrieNode.mk cs w f).is_word = w := rfl

@[simp] theorem TrieNode.freq_mk (cs : List (Char × TrieNode)) (w : Bool) (f : Int) :
    (TrieNode.mk cs w f).freq = f := rfl

section AssocLemmas

variable {c c' : Char} {v u t : TrieNode} {l : List (Char × TrieNode)}

theorem assocSet_of_find_none (h : assocFind c l = none) : assocSet c v l = l := by
  induction l with
  | nil => rfl
  | cons p rest ih =>
    obtain ⟨a, b⟩ := p
    by_cases hac : a = c
    · simp [assocFind, hac] at h
    · simp only [assocFind, hac, if_false] at h
      simp [assocSet, hac, ih h]

theorem assocFind_assocSet_self (h : assocFind c l = some u) :
    assocFind c (assocSet c v l) = some v := by
  induction l with
  | nil => simp [assocFind] at h
  | cons p rest ih =>
    obtain ⟨a, b⟩ := p
    by_cases hac : a = c
    · simp [assocSet, assocFind, hac]
    · simp only [assocFind, hac, if_false] at h
      simp [assocSet, assocFind, hac, ih h]

theorem assocFind_assocSet_ne (h : c' ≠ c) :
    assocFind c' (assocSet c v l) = assocFind c' l := by
  induction l with
  | nil => rfl
  | cons p rest ih =>
    obtain ⟨a, b⟩ := p
    by_cases hac : a = c
    · subst hac
      have ha' : ¬ a = c' := fun hh => h hh.symm
      simp [assocSet, assocFind, ha']
    · by_cases hac' : a = c'
      · simp [assocSet, assocFind, hac, hac', h]
      · simp [assocSet, assocFind, hac, hac', ih]

theorem assocFind_assocErase_ne (h : c' ≠ c) :
    assocFind c' (assocErase c l) = assocFind c' l := by
  induction l with
  | nil => rfl
  | cons p rest ih =>
    obtain ⟨a, b⟩ := p
    by_cases hac : a = c
    · subst hac
      have ha' : ¬ a = c' := fun hh => h hh.symm
      simp [assocErase, assocFind, ha']
    · by_cases hac' : a = c'
      · simp [assocErase, assocFind, hac, hac', h]
      · simp [assocErase, assocFind, hac, hac', ih]

theorem assocFind_mem (h : assocFind c l = some t) : (c, t) ∈ l := by
  induction l with
  | nil => simp [assocFind] at h
  | cons p rest ih =>
    obtain ⟨a, b⟩ := p
    by_cases hac : a = c
    · subst hac
      simp [assocFind] at h
      simp [h]
    · simp only [assocFind, hac, if_false] at h
      exact List.mem_cons_of_mem _ (ih h)

theorem assocFind_isSome_of_mem (h : (c, t) ∈ l) : (assocFind c l).isSome := by
  induction l with
  | nil => simp at h
  | cons p rest ih =>
    obtain ⟨a, b⟩ := p
    rcases List.mem_cons.1 h with h1 | h1
    · obtain ⟨rfl, rfl⟩ : c = a ∧ t = b := by simpa using h1
      simp [assocFind]
    · by_cases hac : a = c
      · simp [assocFind, hac]
      · simp only [assocFind, hac, if_false]
        exact ih h1

end AssocLemmas

section NodupLemmas

variable {c c' : Char} {v u t : TrieNode} {l : List (Char × TrieNode)}

theorem mem_assocFind (hn : keysNodup l = true) (h : (c, t) ∈ l) :
    assocFind c l = some t := by
  induction l with
  | nil => simp at h
  | cons p rest ih =>
    obtain ⟨a, b⟩ := p
    simp only [keysNodup, Bool.and_eq_true] at hn
    rcases List.mem_cons.1 h with h1 | h1
    · obtain ⟨rfl, rfl⟩ : c = a ∧ t = b := by simpa using h1
      simp [assocFind]
    · by_cases hac : a = c
      · subst hac
        have := assocFind_isSome_of_mem h1
        rw [Option.isNone_iff_eq_none] at hn
        simp [hn.1] at this
      · simp only [assocFind, hac, if_false]
        exact ih hn.2 h1

theorem assocFind_none_iff : assocFind c l = none ↔ ∀ t, (c, t) ∉ l := by
  constructor
  · intro h t hm
    have := assocFind_isSome_of_mem hm
    simp [h] at this
  · intro h
    cases hf : assocFind c l with
    | none => rfl
    | some t => exact absurd (assocFind_mem hf) (h t)

theorem keysNodup_assocSet (hn : keysNodup l = true) :
    keysNodup (assocSet c v l) = true := by
  induction l with
  | nil => rfl
  | cons p rest ih =>
    obtain ⟨a, b⟩ := p
    simp only [keysNodup, Bool.and_eq_true] at hn
    by_cases hac : a = c
    · subst hac
      simp [assocSet, keysNodup, hn.1, hn.2]
    · simp only [assocSet, hac, if_false, keysNodup, Bool.and_eq_true]
      refine ⟨?_, ih hn.2⟩
      rw [assocFind_assocSet_ne hac]
      exact hn.1

theorem keysNodup_assocErase (hn : keysNodup l = true) :
    keysNodup (assocErase c l) = true := by
  induction l with
  | nil => rfl
  | cons p rest ih =>
    obtain ⟨a, b⟩ := p
    simp only [keysNodup, Bool.and_eq_true] at hn
    by_cases hac : a = c
    · simp [assocErase, hac, hn.2]
    · simp only [assocErase, hac, if_false, keysNodup, Bool.and_eq_true]
      refine ⟨?_, ih hn.2⟩
      rw [assocFind_assocErase_ne hac]
      exact hn.1

theorem assocFind_append (l₂ : List (Char × TrieNode)) :
    assocFind c (l ++ l₂) =
      (match assocFind c l with
       | some t => some t
       | none => assocFind c l₂) := by
  induction l with
  | nil => simp [assocFind]
  | cons p rest ih =>
    obtain ⟨a, b⟩ := p
    by_cases hac : a = c
    · simp [assocFind, hac]
    · simp [assocFind, hac, ih]

theorem keysNodup_append_single (hn : keysNodup l = true)
    (h : assocFind c l = none) : keysNodup (l ++ [(c, v)]) = true := by
  induction l with
  | nil => simp [keysNodup, assocFind]
  | cons p rest ih =>
    obtain ⟨a, b⟩ := p
    simp only [keysNodup, Bool.and_eq_true] at hn
    simp only [assocFind] at h
    by_cases hac : a = c
    · simp [hac] at h
    · simp only [hac, if_false] at h
      simp only [List.cons_append, keysNodup, Bool.and_eq_true]
      refine ⟨?_, ih hn.2 h⟩
      simp only [List.append_eq, assocFind_append]
      rw [Option.isNone_iff_eq_none] at hn ⊢
      rw [hn.1]
      have hca : ¬ c = a := fun hh => hac hh.symm
      simp [assocFind, hca]

theorem assocFind_assocErase_self (hn : keysNodup l = true) :
    assocFind c (assocErase c l) = none := by
  induction l with
  | nil => rfl
  | cons p rest ih =>
    obtain ⟨a, b⟩ := p
    simp only [keysNodup, Bool.and_eq_true] at hn
    by_cases hac : a = c
    · subst hac
      simp only [assocErase, if_true]
      rw [Option.isNone_iff_eq_none] at hn
      exact hn.1
    · simp only [assocErase, hac, if_false, assocFind, if_neg hac]
      exact ih hn.2

end NodupLemmas

section CountLemmas

variable {c : Char} {v u : TrieNode} {l : List (Char × TrieNode)}

theorem countNodesL_assocSet (h : assocFind c l = some u) :
    countNodesL (assocSet c v l) + countNodes u = countNodesL l + countNodes v := by
  induction l with
  | nil => simp [assocFind] at h
  | cons p rest ih =>
    obtain ⟨a, b⟩ := p
    by_cases hac : a = c
    · simp only [assocFind, hac, if_true, Option.some.injEq] at h
      subst h
      simp [assocSet, hac, countNodesL]
      omega
    · simp only [assocFind, hac, if_false] at h
      simp only [assocSet, hac, if_false, countNodesL]
      have := ih h
      omega

theorem countWordsL_assocSet (h : assocFind c l = some u) :
    countWordsL (assocSet c v l) + countWords u = countWordsL l + countWords v := by
  induction l with
  | nil => simp [assocFind] at h
  | cons p rest ih =>
    obtain ⟨a, b⟩ := p
    by_cases hac : a = c
    · simp only [assocFind, hac, if_true, Option.some.injEq] at h
      subst h
      simp [assocSet, hac, countWordsL]
      omega
    · simp only [assocFind, hac, if_false] at h
      simp only [assocSet, hac, if_false, countWordsL]
      have := ih h
      omega

theorem countNodesL_assocErase (h : assocFind c l = some u) :
    countNodesL (assocErase c l) + countNodes u = countNodesL l := by
  induction l with
  | nil => simp [assocFind] at h
  | cons p rest ih =>
    obtain ⟨a, b⟩ := p
    by_cases hac : a = c
    · simp only [assocFind, hac, if_true, Option.some.injEq] at h
      subst h
      simp [assocErase, hac, countNodesL]
      omega
    · simp only [assocFind, hac, if_false] at h
      simp only [assocErase, hac, if_false, countNodesL]
      have := ih h
      omega

theorem countWordsL_assocErase (h : assocFind c l = some u) :
    countWordsL (assocErase c l) + countWords u = countWordsL l := by
  induction l with
  | nil => simp [assocFind] at h
  | cons p rest ih =>
    obtain ⟨a, b⟩ := p
    by_cases hac : a = c
    · simp only [assocFind, hac, if_true, Option.some.injEq] at h
      subst h
      simp [assocErase, hac, countWordsL]
      omega
    · simp only [assocFind, hac, if_false] at h
      simp only [assocErase, hac, if_false, countWordsL]
      have := ih h
      omega

theorem countNodesL_append :
    countNodesL (l ++ [(c, v)]) = countNodesL l + countNodes v := by
  induction l with
  | nil => simp [countNodesL]
  | cons p rest ih =>
    obtain ⟨a, b⟩ := p
    simp only [List.cons_append, countNodesL, List.append_eq] at *
    omega

theorem countWordsL_append :
    countWordsL (l ++ [(c, v)]) = countWordsL l + countWords v := by
  induction l with
  | nil => simp [countWordsL]
  | cons p rest ih =>
    obtain ⟨a, b⟩ := p
    simp only [List.cons_append, countWordsL, List.append_eq] at *
    omega

theorem insertAux_countNodes (fr : Int) (w : List Char) :
    ∀ n : TrieNode, countNodes (insertAux fr n w).1 = countNodes n + (insertAux fr n w).2.1 := by
  induction w with
  | nil =>
    intro n
    obtain ⟨cs, wd, f⟩ := n
    simp [insertAux, countNodes]
  | cons ch rest ih =>
    intro n
    obtain ⟨cs, wd, f⟩ := n
    simp only [insertAux]
    cases hf : assocFind ch cs with
    | some child =>
      simp only [countNodes]
      have h1 := countNodesL_assocSet (v := (insertAux fr child rest).1) hf
      have h2 := ih child
      omega
    | none =>
      simp only [countNodes, countNodesL_append]
      have h2 := ih (.mk [] false 0)
      simp [countNodes, countNodesL] at h2
      omega

theorem insertAux_countWords (fr : Int) (w : List Char) :
    ∀ n : TrieNode, countWords (insertAux fr n w).1 =
      countWords n + (if (insertAux fr n w).2.2 then 1 else 0) := by
  induction w with
  | nil =>
    intro n
    obtain ⟨cs, wd, f⟩ := n
    cases wd
    · simp [insertAux, countWords]
      omega
    · simp [insertAux, countWords]
  | cons ch rest ih =>
    intro n
    obtain ⟨cs, wd, f⟩ := n
    cases hf : assocFind ch cs with
    | some child =>
      simp only [insertAux, hf, countWords]
      have h1 := countWordsL_assocSet (v := (insertAux fr child rest).1) hf
      have h2 := ih child
      cases h3 : (insertAux fr child rest).2.2 <;> simp [h3] at h2 ⊢ <;> omega
    | none =>
      simp only [insertAux, hf, countWords, countWordsL_append]
      have h2 := ih (.mk [] false 0)
      cases h3 : (insertAux fr (TrieNode.mk [] false 0) rest).2.2 <;>
        simp [h3, countWords, countWordsL] at h2 ⊢ <;> omega

theorem removeAux_counts (w : List Char) :
    ∀ (n n' : TrieNode) (d : Nat), removeAux n w = some (n', d) →
      countNodes n' + d = countNodes n ∧ countWords n' + 1 = countWords n := by
  induction w with
  | nil =>
    intro n n' d h
    obtain ⟨cs, wd, f⟩ := n
    cases wd with
    | false => simp [removeAux] at h
    | true =>
      simp [removeAux] at h
      obtain ⟨h1, h2⟩ := h
      subst h1
      subst h2
      simp [countNodes, countWords]
      omega
  | cons ch rest ih =>
    intro n n' d h
    obtain ⟨cs, wd, f⟩ := n
    cases hf : assocFind ch cs with
    | none => simp [removeAux, hf] at h
    | some child =>
      cases hr : removeAux child rest with
      | none => simp [removeAux, hf, hr] at h
      | some pr =>
        obtain ⟨child', dc⟩ := pr
        simp only [removeAux, hf, hr] at h
        have hrec := ih child child' dc hr
        by_cases hempty : (child'.children.isEmpty && !child'.is_word) = true
        · rw [if_pos hempty] at h
          simp only [Option.some.injEq, Prod.mk.injEq] at h
          obtain ⟨h1, h2⟩ := h
          subst h1
          have hch : countNodes child' = 1 ∧ countWords child' = 0 := by
            obtain ⟨cs', wd', f'⟩ := child'
            simp only [Bool.and_eq_true, Bool.not_eq_true'] at hempty
            have hcs : cs' = [] := by
              have := hempty.1
              simpa [List.isEmpty_iff] using this
            subst hcs
            have hwd : wd' = false := by simpa using hempty.2
            subst hwd
            simp [countNodes, countWords, countNodesL, countWordsL]
          have hN := countNodesL_assocErase hf
          have hW := countWordsL_assocErase hf
          simp only [countNodes, countWords]
          constructor
          · omega
          · omega
        · rw [if_neg hempty] at h
          simp only [Option.some.injEq, Prod.mk.injEq] at h
          obtain ⟨h1, h2⟩ := h
          subst h1
          have hN := countNodesL_assocSet (v := child') hf
          have hW := countWordsL_assocSet (v := child') hf
          simp only [countNodes, countWords]
          constructor
          · omega
          · omega

end CountLemmas

theorem counts_invariant {t : Trie} (h : Reachable t) :
    t.total_nodes = (countNodes t.root : Int) ∧
      t.total_words = (countWords t.root : Int) := by
  induction h with
  | init => simp [Trie.new, countNodes, countWords, countNodesL, countWordsL]
  | ins t w f _ ih =>
    have hN := insertAux_countNodes f w t.root
    have hW := insertAux_countWords f w t.root
    simp only [Trie.insert]
    constructor
    · have := ih.1
      omega
    · have := ih.2
      cases hb : (insertAux f t.root w).2.2 <;> simp [hb] at hW ⊢ <;> omega
  | rem t w _ ih =>
    cases hr : removeAux t.root w with
    | none =>
      simpa [Trie.remove, hr] using ih
    | some pr =>
      obtain ⟨r, d⟩ := pr
      have hc := removeAux_counts w t.root r d hr
      simp only [Trie.remove, hr]
      have h1 := ih.1
      have h2 := ih.2
      exact ⟨by omega, by omega⟩

theorem one_le_countNodes (n : TrieNode) : 1 ≤ countNodes n := by
  obtain ⟨cs, w, f⟩ := n
  simp [countNodes]

/-- C3: after any sequence of insert and remove operations starting from a
fresh index, node_count equals the number of reachable nodes (root
included) and word_count equals the number of reachable terminal nodes, so
the counters returned by stats match the actual tree structure. -/
theorem C3_counters_match_structure {t : Trie} (h : Reachable t) :
    t.stats.2.2 = (countNodes t.root : Int) ∧
      t.stats.1 = (countWords t.root : Int) := by
  have hc := counts_invariant h
  exact ⟨hc.1, hc.2⟩

/-- Witness for C3 at a concrete reachable state. -/
theorem C3_counters_match_structure_witness :
    ((Trie.new.insert ['a'] 2).stats.2.2 =
        (countNodes (Trie.new.insert ['a'] 2).root : Int)) ∧
      ((Trie.new.insert ['a'] 2).stats.1 =
        (countWords (Trie.new.insert ['a'] 2).root : Int)) :=
  C3_counters_match_structure (Reachable.ins _ _ _ Reachable.init)

/-- C10: the root node is never detached: node_count stays at least one,
and removing the empty word when the root is terminal returns true, clears
the root terminal flag and weight, and leaves the children map and
node_count unchanged, even though the root may then be a non-terminal node
with no children. -/
theorem C10_root_never_detached {t : Trie} (h : Reachable t) :
    1 ≤ t.total_nodes ∧
    (t.root.is_word = true →
      (t.remove []).2 = true ∧
      (t.remove []).1.root.is_word = false ∧
      (t.remove []).1.root.freq = 0 ∧
      (t.remove []).1.root.children = t.root.children ∧
      (t.remove []).1.total_nodes = t.total_nodes) := by
  constructor
  · have h1 := (counts_invariant h).1
    have h2 := one_le_countNodes t.root
    omega
  · intro hw
    rcases ht : t.root with ⟨cs, wd, f⟩
    rw [ht] at hw
    simp only [TrieNode.is_word_mk] at hw
    subst hw
    simp [Trie.remove, ht, removeAux]

/-- Witness for C10 at a reachable state whose root is terminal. -/
theorem C10_root_never_detached_witness :
    1 ≤ (Trie.new.insert [] 5).total_nodes ∧
      (((Trie.new.insert [] 5).remove []).2 = true ∧
       ((Trie.new.insert [] 5).remove []).1.root.is_word = false ∧
       ((Trie.new.insert [] 5).remove []).1.root.freq = 0 ∧
       ((Trie.new.insert [] 5).remove []).1.root.children =
         (Trie.new.insert [] 5).root.children ∧
       ((Trie.new.insert [] 5).remove []).1.total_nodes =
         (Trie.new.insert [] 5).total_nodes) :=
  have h := C10_root_never_detached (Reachable.ins _ _ _ Reachable.init)
  ⟨h.1, h.2 (by decide)⟩

section DeadBranchLemmas

variable {c : Char} {v t : TrieNode} {l : List (Char × TrieNode)}

theorem goodL_mem (hg : goodL l = true) (h : (c, t) ∈ l) : goodN t = true := by
  induction l with
  | nil => simp at h
  | cons p rest ih =>
    obtain ⟨a, b⟩ := p
    simp only [goodL, Bool.and_eq_true] at hg
    rcases List.mem_cons.1 h with h1 | h1
    · obtain ⟨rfl, rfl⟩ : c = a ∧ t = b := by simpa using h1
      exact hg.1
    · exact ih hg.2 h1

theorem goodL_assocSet (hg : goodL l = true) (hv : goodN v = true) :
    goodL (assocSet c v l) = true := by
  induction l with
  | nil => rfl
  | cons p rest ih =>
    obtain ⟨a, b⟩ := p
    simp only [goodL, Bool.and_eq_true] at hg
    by_cases hac : a = c
    · simp [assocSet, hac, goodL, hv, hg.2]
    · simp [assocSet, hac, goodL, hg.1, ih hg.2]

theorem goodL_assocErase (hg : goodL l = true) : goodL (assocErase c l) = true := by
  induction l with
  | nil => rfl
  | cons p rest ih =>
    obtain ⟨a, b⟩ := p
    simp only [goodL, Bool.and_eq_true] at hg
    by_cases hac : a = c
    · simp [assocErase, hac, hg.2]
    · simp [assocErase, hac, goodL, hg.1, ih hg.2]

theorem goodL_append (hg : goodL l = true) (hv : goodN v = true) :
    goodL (l ++ [(c, v)]) = true := by
  induction l with
  | nil => simp [goodL, hv]
  | cons p rest ih =>
    obtain ⟨a, b⟩ := p
    simp only [goodL, Bool.and_eq_true] at hg
    simp only [List.cons_append, goodL, Bool.and_eq_true]
    exact ⟨hg.1, ih hg.2⟩

theorem goodN_insertAux_fresh (fr : Int) (w : List Char) :
    goodN (insertAux fr (.mk [] false 0) w).1 = true := by
  induction w with
  | nil => simp [insertAux, goodN, goodL]
  | cons ch rest ih =>
    simp only [insertAux, assocFind]
    simp [goodN, goodL, ih]

theorem goodN_insertAux (fr : Int) (w : List Char) :
    ∀ n : TrieNode, goodN n = true → goodN (insertAux fr n w).1 = true := by
  induction w with
  | nil =>
    intro n hn
    obtain ⟨cs, wd, f⟩ := n
    simp only [goodN, Bool.and_eq_true] at hn
    simp [insertAux, goodN, hn.2]
  | cons ch rest ih =>
    intro n hn
    obtain ⟨cs, wd, f⟩ := n
    simp only [goodN, Bool.and_eq_true] at hn
    cases hf : assocFind ch cs with
    | some child =>
      have hchild : goodN child = true := goodL_mem hn.2 (assocFind_mem hf)
      have hcs : cs ≠ [] := by
        intro hcs
        subst hcs
        simp [assocFind] at hf
      simp only [insertAux, hf, goodN, Bool.and_eq_true]
      constructor
      · cases cs with
        | nil => exact absurd rfl hcs
        | cons q qs =>
          obtain ⟨a, b⟩ := q
          by_cases hac : a = ch <;> simp [assocSet, hac]
      · exact goodL_assocSet hn.2 (ih child hchild)
    | none =>
      simp only [insertAux, hf, goodN, Bool.and_eq_true]
      constructor
      · simp
      · exact goodL_append hn.2 (goodN_insertAux_fresh fr rest)

theorem goodL_children_insertAux (fr : Int) (w : List Char) :
    ∀ n : TrieNode, goodL n.children = true →
      goodL ((insertAux fr n w).1).children = true := by
  induction w with
  | nil =>
    intro n hn
    obtain ⟨cs, wd, f⟩ := n
    simpa [insertAux] using hn
  | cons ch rest ih =>
    intro n hn
    obtain ⟨cs, wd, f⟩ := n
    simp only [TrieNode.children_mk] at hn
    cases hf : assocFind ch cs with
    | some child =>
      have hchild : goodN child = true := goodL_mem hn (assocFind_mem hf)
      simp only [insertAux, hf, TrieNode.children_mk]
      exact goodL_assocSet hn (goodN_insertAux fr rest child hchild)
    | none =>
      simp only [insertAux, hf, TrieNode.children_mk]
      exact goodL_append hn (goodN_insertAux_fresh fr rest)

theorem goodL_children_removeAux (w : List Char) :
    ∀ (n n' : TrieNode) (d : Nat), removeAux n w = some (n', d) →
      goodL n.children = true → goodL n'.children = true := by
  induction w with
  | nil =>
    intro n n' d h hn
    obtain ⟨cs, wd, f⟩ := n
    cases wd with
    | false => simp [removeAux] at h
    | true =>
      simp [removeAux] at h
      obtain ⟨h1, h2⟩ := h
      subst h1
      simpa using hn
  | cons ch rest ih =>
    intro n n' d h hn
    obtain ⟨cs, wd, f⟩ := n
    simp only [TrieNode.children_mk] at hn
    cases hf : assocFind ch cs with
    | none => simp [removeAux, hf] at h
    | some child =>
      cases hr : removeAux child rest with
      | none => simp [removeAux, hf, hr] at h
      | some pr =>
        obtain ⟨child', dc⟩ := pr
        simp only [removeAux, hf, hr] at h
        have hchild : goodN child = true := goodL_mem hn (assocFind_mem hf)
        have hchildL : goodL child.children = true := by
          obtain ⟨cs', wd', f'⟩ := child
          simp only [goodN, Bool.and_eq_true] at hchild
          simpa using hchild.2
        have hchild' : goodL child'.children = true := ih child child' dc hr hchildL
        by_cases hempty : (child'.children.isEmpty && !child'.is_word) = true
        · rw [if_pos hempty] at h
          simp only [Option.some.injEq, Prod.mk.injEq] at h
          obtain ⟨h1, h2⟩ := h
          subst h1
          simpa using goodL_assocErase hn
        · rw [if_neg hempty] at h
          simp only [Option.some.injEq, Prod.mk.injEq] at h
          obtain ⟨h1, h2⟩ := h
          subst h1
          have hgood' : goodN child' = true := by
            obtain ⟨cs', wd', f'⟩ := child'
            simp only [TrieNode.children_mk, TrieNode.is_word_mk, Bool.and_eq_true,
              Bool.not_eq_true', not_and] at hempty
            simp only [goodN, Bool.and_eq_true]
            constructor
            · by_cases hcs' : cs' = []
              · subst hcs'
                have hw' := hempty (by simp)
                simp only [Bool.not_eq_false] at hw'
                simp [hw']
              · simp [List.isEmpty_iff, hcs']
            · simpa using hchild'
          simpa using goodL_assocSet hn hgood'

end DeadBranchLemmas

/-- C2 fails as stated: after inserting and then removing the word "a", the
root of this reachable index is a non-terminal node with no children, so a
non-terminal leaf does exist after a mutation completes. -/
theorem C2_counterexample :
    Reachable ((Trie.new.insert ['a'] 1).remove ['a']).1 ∧
      ((Trie.new.insert ['a'] 1).remove ['a']).1.root.children = [] ∧
      ((Trie.new.insert ['a'] 1).remove ['a']).1.root.is_word = false :=
  ⟨Reachable.rem _ _ (Reachable.ins _ _ _ Reachable.init), rfl, rfl⟩

/-- C2 amended: after every insert or remove, every leaf node other than
the root is terminal; the root itself may be a bare non-terminal leaf
(fresh index, or index whose last word was removed). -/
theorem C2_no_dead_branches_below_root {t : Trie} (h : Reachable t) :
    goodL t.root.children = true := by
  induction h with
  | init => rfl
  | ins t w f _ ih =>
    simpa [Trie.insert] using goodL_children_insertAux f w t.root ih
  | rem t w _ ih =>
    cases hr : removeAux t.root w with
    | none => simpa [Trie.remove, hr] using ih
    | some pr =>
      obtain ⟨r, d⟩ := pr
      simpa [Trie.remove, hr] using goodL_children_removeAux w t.root r d hr ih

/-- Witness for the amended C2 at a concrete reachable state. -/
theorem C2_no_dead_branches_below_root_witness :
    goodL ((Trie.new.insert ['a', 'b'] 3).remove ['a', 'b']).1.root.children = true :=
  C2_no_dead_branches_below_root (Reachable.rem _ _ (Reachable.ins _ _ _ Reachable.init))

section WfLemmas

variable {c : Char} {v t : TrieNode} {l : List (Char × TrieNode)}

theorem wfN_mk_iff {cs : List (Char × TrieNode)} {w : Bool} {f : Int} :
    wfN (.mk cs w f) = true ↔ (keysNodup cs = true ∧ wfL cs = true) := by
  simp [wfN]

theorem wfL_mem (hg : wfL l = true) (h : (c, t) ∈ l) : wfN t = true := by
  induction l with
  | nil => simp at h
  | cons p rest ih =>
    obtain ⟨a, b⟩ := p
    simp only [wfL, Bool.and_eq_true] at hg
    rcases List.mem_cons.1 h with h1 | h1
    · obtain ⟨rfl, rfl⟩ : c = a ∧ t = b := by simpa using h1
      exact hg.1
    · exact ih hg.2 h1

theorem wfL_assocSet (hg : wfL l = true) (hv : wfN v = true) :
    wfL (assocSet c v l) = true := by
  induction l with
  | nil => rfl
  | cons p rest ih =>
    obtain ⟨a, b⟩ := p
    simp only [wfL, Bool.and_eq_true] at hg
    by_cases hac : a = c
    · simp [assocSet, hac, wfL, hv, hg.2]
    · simp [assocSet, hac, wfL, hg.1, ih hg.2]

theorem wfL_assocErase (hg : wfL l = true) : wfL (assocErase c l) = true := by
  induction l with
  | nil => rfl
  | cons p rest ih =>
    obtain ⟨a, b⟩ := p
    simp only [wfL, Bool.and_eq_true] at hg
    by_cases hac : a = c
    · simp [assocErase, hac, hg.2]
    · simp [assocErase, hac, wfL, hg.1, ih hg.2]

theorem wfL_append (hg : wfL l = true) (hv : wfN v = true) :
    wfL (l ++ [(c, v)]) = true := by
  induction l with
  | nil => simp [wfL, hv]
  | cons p rest ih =>
    obtain ⟨a, b⟩ := p
    simp only [wfL, Bool.and_eq_true] at hg
    simp only [List.cons_append, wfL, Bool.and_eq_true]
    exact ⟨hg.1, ih hg.2⟩

theorem wfN_insertAux_fresh (fr : Int) (w : List Char) :
    wfN (insertAux fr (.mk [] false 0) w).1 = true := by
  induction w with
  | nil => rfl
  | cons ch rest ih =>
    simp only [insertAux, assocFind]
    simp [wfN, wfL, keysNodup, assocFind, ih]

theorem wfN_insertAux (fr : Int) (w : List Char) :
    ∀ n : TrieNode, wfN n = true → wfN (insertAux fr n w).1 = true := by
  induction w with
  | nil =>
    intro n hn
    obtain ⟨cs, wd, f⟩ := n
    rw [wfN_mk_iff] at hn
    simp [insertAux, wfN, hn.1, hn.2]
  | cons ch rest ih =>
    intro n hn
    obtain ⟨cs, wd, f⟩ := n
    rw [wfN_mk_iff] at hn
    cases hf : assocFind ch cs with
    | some child =>
      have hchild : wfN child = true := wfL_mem hn.2 (assocFind_mem hf)
      simp only [insertAux, hf]
      rw [wfN_mk_iff]
      exact ⟨keysNodup_assocSet hn.1, wfL_assocSet hn.2 (ih child hchild)⟩
    | none =>
      simp only [insertAux, hf]
      rw [wfN_mk_iff]
      exact ⟨keysNodup_append_single hn.1 hf, wfL_append hn.2 (wfN_insertAux_fresh fr rest)⟩

theorem wfN_removeAux (w : List Char) :
    ∀ (n n' : TrieNode) (d : Nat), removeAux n w = some (n', d) →
      wfN n = true → wfN n' = true := by
  induction w with
  | nil =>
    intro n n' d h hn
    obtain ⟨cs, wd, f⟩ := n
    cases wd with
    | false => simp [removeAux] at h
    | true =>
      simp [removeAux] at h
      obtain ⟨h1, h2⟩ := h
      subst h1
      rw [wfN_mk_iff] at hn ⊢
      exact hn
  | cons ch rest ih =>
    intro n n' d h hn
    obtain ⟨cs, wd, f⟩ := n
    rw [wfN_mk_iff] at hn
    cases hf : assocFind ch cs with
    | none => simp [removeAux, hf] at h
    | some child =>
      cases hr : removeAux child rest with
      | none => simp [removeAux, hf, hr] at h
      | some pr =>
        obtain ⟨child', dc⟩ := pr
        simp only [removeAux, hf, hr] at h
        have hchild : wfN child = true := wfL_mem hn.2 (assocFind_mem hf)
        have hchild' : wfN child' = true := ih child child' dc hr hchild
        by_cases hempty : (child'.children.isEmpty && !child'.is_word) = true
        · rw [if_pos hempty] at h
          simp only [Option.some.injEq, Prod.mk.injEq] at h
          obtain ⟨h1, h2⟩ := h
          subst h1
          rw [wfN_mk_iff]
          exact ⟨keysNodup_assocErase hn.1, wfL_assocErase hn.2⟩
        · rw [if_neg hempty] at h
          simp only [Option.some.injEq, Prod.mk.injEq] at h
          obtain ⟨h1, h2⟩ := h
          subst h1
          rw [wfN_mk_iff]
          exact ⟨keysNodup_assocSet hn.1, wfL_assocSet hn.2 hchild'⟩

theorem wf_reachable {t : Trie} (h : Reachable t) : wfN t.root = true := by
  induction h with
  | init => rfl
  | ins t w f _ ih => simpa [Trie.insert] using wfN_insertAux f w t.root ih
  | rem t w _ ih =>
    cases hr : removeAux t.root w with
    | none => simpa [Trie.remove, hr] using ih
    | some pr =>
      obtain ⟨r, d⟩ := pr
      simpa [Trie.remove, hr] using wfN_removeAux w t.root r d hr ih

end WfLemmas

theorem contains_eq (t : Trie) (w : List Char) :
    t.contains w = ((findNode t.root w).map TrieNode.is_word).getD false := by
  unfold Trie.contains
  cases findNode t.root w <;> simp

theorem removeAux_isSome (w : List Char) :
    ∀ n : TrieNode, (removeAux n w).isSome =
      ((findNode n w).map TrieNode.is_word).getD false := by
  induction w with
  | nil =>
    intro n
    obtain ⟨cs, wd, f⟩ := n
    cases wd <;> simp [removeAux, findNode]
  | cons ch rest ih =>
    intro n
    obtain ⟨cs, wd, f⟩ := n
    cases hf : assocFind ch cs with
    | none => simp [removeAux, findNode, hf]
    | some child =>
      have hthis := ih child
      simp only [removeAux, findNode, TrieNode.children_mk, hf]
      cases hr : removeAux child rest with
      | none =>
        rw [hr] at hthis
        simp only [Option.isSome_none] at hthis
        simp [← hthis]
      | some pr =>
        obtain ⟨child', dc⟩ := pr
        rw [hr] at hthis
        simp only [Option.isSome_some] at hthis
        rw [← hthis]
        by_cases hempty : (child'.children.isEmpty && !child'.is_word) = true
        · simp [hempty]
        · simp [hempty]

theorem removeAux_not_contains (w : List Char) :
    ∀ (n n' : TrieNode) (d : Nat), wfN n = true → removeAux n w = some (n', d) →
      ((findNode n' w).map TrieNode.is_word).getD false = false := by
  induction w with
  | nil =>
    intro n n' d hw h
    obtain ⟨cs, wd, f⟩ := n
    cases wd with
    | false => simp [removeAux] at h
    | true =>
      simp [removeAux] at h
      obtain ⟨h1, h2⟩ := h
      subst h1
      simp [findNode]
  | cons ch rest ih =>
    intro n n' d hw h
    obtain ⟨cs, wd, f⟩ := n
    rw [wfN_mk_iff] at hw
    cases hf : assocFind ch cs with
    | none => simp [removeAux, hf] at h
    | some child =>
      cases hr : removeAux child rest with
      | none => simp [removeAux, hf, hr] at h
      | some pr =>
        obtain ⟨child', dc⟩ := pr
        simp only [removeAux, hf, hr] at h
        have hchild : wfN child = true := wfL_mem hw.2 (assocFind_mem hf)
        by_cases hempty : (child'.children.isEmpty && !child'.is_word) = true
        · rw [if_pos hempty] at h
          simp only [Option.some.injEq, Prod.mk.injEq] at h
          obtain ⟨h1, h2⟩ := h
          subst h1
          simp [findNode, assocFind_assocErase_self hw.1]
        · rw [if_neg hempty] at h
          simp only [Option.some.injEq, Prod.mk.injEq] at h
          obtain ⟨h1, h2⟩ := h
          subst h1
          simp only [findNode, TrieNode.children_mk, assocFind_assocSet_self hf]
          exact ih child child' dc hchild hr

/-- C4: remove(w) returns true iff w is currently a stored word (same as
contains(w) just before); a false result leaves the index unchanged; a true
result decrements word_count, makes contains(w) false, and makes a second
remove(w) return false. -/
theorem C4_remove_semantics {t : Trie} (w : List Char) (h : Reachable t) :
    (t.remove w).2 = t.contains w ∧
    ((t.remove w).2 = false → (t.remove w).1 = t) ∧
    ((t.remove w).2 = true →
      (t.remove w).1.total_words = t.total_words - 1 ∧
      (t.remove w).1.contains w = false ∧
      ((t.remove w).1.remove w).2 = false) := by
  have hwf := wf_reachable h
  refine ⟨?_, ?_, ?_⟩
  · rw [contains_eq, ← removeAux_isSome]
    unfold Trie.remove
    cases removeAux t.root w <;> simp
  · intro hfalse
    unfold Trie.remove at hfalse ⊢
    cases hr : removeAux t.root w with
    | none => simp
    | some pr => rw [hr] at hfalse; simp at hfalse
  · intro htrue
    unfold Trie.remove at htrue
    cases hr : removeAux t.root w with
    | none => rw [hr] at htrue; simp at htrue
    | some pr =>
      obtain ⟨r, d⟩ := pr
      have hnc := removeAux_not_contains w t.root r d hwf hr
      refine ⟨?_, ?_, ?_⟩
      · simp [Trie.remove, hr]
      · rw [contains_eq]
        simpa [Trie.remove, hr] using hnc
      · have h2 := removeAux_isSome w r
        rw [hnc] at h2
        have h3 : removeAux r w = none := by
          cases hx : removeAux r w with
          | none => rfl
          | some pr2 => rw [hx] at h2; simp at h2
        simp [Trie.remove, hr, h3]

/-- Witness for C4 on a one-word index. -/
theorem C4_remove_semantics_witness :
    (((Trie.new.insert ['a'] 1).remove ['a']).2 =
        (Trie.new.insert ['a'] 1).contains ['a']) ∧
      (((Trie.new.insert ['a'] 1).remove ['a']).1.total_words =
        (Trie.new.insert ['a'] 1).total_words - 1) ∧
      (((Trie.new.insert ['a'] 1).remove ['a']).1.contains ['a'] = false) ∧
      ((((Trie.new.insert ['a'] 1).remove ['a']).1.remove ['a']).2 = false) :=
  have h := C4_remove_semantics ['a'] (Reachable.ins _ _ _ Reachable.init)
  have h3 := h.2.2 (by decide)
  ⟨h.1, h3.1, h3.2.1, h3.2.2⟩

section ReinsertLemmas

variable {c : Char} {v u : TrieNode} {l : List (Char × TrieNode)}

theorem stripFreqL_assocSet (h : assocFind c l = some u)
    (hv : stripFreq v = stripFreq u) :
    stripFreqL (assocSet c v l) = stripFreqL l := by
  induction l with
  | nil => rfl
  | cons p rest ih =>
    obtain ⟨a, b⟩ := p
    by_cases hac : a = c
    · simp only [assocFind, hac, if_true, Option.some.injEq] at h
      subst h
      simp [assocSet, hac, stripFreqL, hv]
    · simp only [assocFind, hac, if_false] at h
      simp [assocSet, hac, stripFreqL, ih h]

theorem present_cons {cs : List (Char × TrieNode)} {wd : Bool} {f : Int}
    {ch : Char} {rest : List Char}
    (h : ((findNode (.mk cs wd f) (ch :: rest)).map TrieNode.is_word).getD false = true) :
    ∃ child, assocFind ch cs = some child ∧
      ((findNode child rest).map TrieNode.is_word).getD false = true := by
  cases hf : assocFind ch cs with
  | none => simp [findNode, hf] at h
  | some child =>
    refine ⟨child, rfl, ?_⟩
    simpa [findNode, hf] using h

theorem insertAux_present_counters (fr : Int) (w : List Char) :
    ∀ n : TrieNode, ((findNode n w).map TrieNode.is_word).getD false = true →
      (insertAux fr n w).2.1 = 0 ∧ (insertAux fr n w).2.2 = false := by
  induction w with
  | nil =>
    intro n hp
    obtain ⟨cs, wd, f⟩ := n
    simp [findNode] at hp
    simp [insertAux, hp]
  | cons ch rest ih =>
    intro n hp
    obtain ⟨cs, wd, f⟩ := n
    obtain ⟨child, hf, hp'⟩ := present_cons hp
    simp only [insertAux, hf]
    exact ih child hp'

theorem insertAux_present_shape (fr : Int) (w : List Char) :
    ∀ n : TrieNode, ((findNode n w).map TrieNode.is_word).getD false = true →
      stripFreq (insertAux fr n w).1 = stripFreq n := by
  induction w with
  | nil =>
    intro n hp
    obtain ⟨cs, wd, f⟩ := n
    simp [findNode] at hp
    simp [insertAux, hp, stripFreq]
  | cons ch rest ih =>
    intro n hp
    obtain ⟨cs, wd, f⟩ := n
    obtain ⟨child, hf, hp'⟩ := present_cons hp
    simp only [insertAux, hf, stripFreq]
    rw [stripFreqL_assocSet hf (ih child hp')]

theorem insertAux_present_target (fr : Int) (w : List Char) :
    ∀ n : TrieNode, ((findNode n w).map TrieNode.is_word).getD false = true →
      wordObs (insertAux fr n w).1 w = some (true, fr) := by
  induction w with
  | nil =>
    intro n _
    obtain ⟨cs, wd, f⟩ := n
    simp [insertAux, wordObs, findNode]
  | cons ch rest ih =>
    intro n hp
    obtain ⟨cs, wd, f⟩ := n
    obtain ⟨child, hf, hp'⟩ := present_cons hp
    simp only [insertAux, hf, wordObs, findNode, TrieNode.children_mk,
      assocFind_assocSet_self hf]
    exact ih child hp'

theorem insertAux_present_frame (fr : Int) (w : List Char) :
    ∀ (n : TrieNode) (v' : List Char), v' ≠ w →
      ((findNode n w).map TrieNode.is_word).getD false = true →
      wordObs (insertAux fr n w).1 v' = wordObs n v' := by
  induction w with
  | nil =>
    intro n v' hne hp
    obtain ⟨cs, wd, f⟩ := n
    simp [findNode] at hp
    cases v' with
    | nil => exact absurd rfl hne
    | cons c v'' =>
      simp [insertAux, hp, wordObs, findNode]
  | cons ch rest ih =>
    intro n v' hne hp
    obtain ⟨cs, wd, f⟩ := n
    obtain ⟨child, hf, hp'⟩ := present_cons hp
    cases v' with
    | nil => simp [insertAux, hf, wordObs, findNode]
    | cons c v'' =>
      by_cases hc : c = ch
      · subst hc
        have hne' : v'' ≠ rest := fun hh => hne (hh ▸ rfl)
        simp only [insertAux, hf, wordObs, findNode, TrieNode.children_mk,
          assocFind_assocSet_self hf]
        exact ih child v'' hne' hp'
      · have hcc : c ≠ ch := hc
        simp only [insertAux, hf, wordObs, findNode, TrieNode.children_mk,
          assocFind_assocSet_ne hcc]

end ReinsertLemmas

/-- C5: re-inserting an already stored word with a new weight changes only
that word's stored weight: both counters, the node set, the children maps,
all terminal flags, and the observable state of every other word are
unchanged (invariant I4). -/
theorem C5_reinsert_updates_only_weight {t : Trie} (w : List Char) (f2 : Int)
    (h : t.contains w = true) :
    (t.insert w f2).total_words = t.total_words ∧
    (t.insert w f2).total_nodes = t.total_nodes ∧
    stripFreq (t.insert w f2).root = stripFreq t.root ∧
    wordObs (t.insert w f2).root w = some (true, f2) ∧
    ∀ v, v ≠ w → wordObs (t.insert w f2).root v = wordObs t.root v := by
  rw [contains_eq] at h
  have hc := insertAux_present_counters f2 w t.root h
  refine ⟨?_, ?_, ?_, ?_, ?_⟩
  · simp [Trie.insert, hc.2]
  · simp [Trie.insert, hc.1]
  · simpa [Trie.insert] using insertAux_present_shape f2 w t.root h
  · simpa [Trie.insert] using insertAux_present_target f2 w t.root h
  · intro v hv
    simpa [Trie.insert] using insertAux_present_frame f2 w t.root v hv h

/-- Witness for C5: re-inserting "a" with weight 7 into a two-word index. -/
theorem C5_reinsert_updates_only_weight_witness :
    (((Trie.new.insert ['b'] 2).insert ['a'] 1).insert ['a'] 7).total_words =
        ((Trie.new.insert ['b'] 2).insert ['a'] 1).total_words ∧
      (((Trie.new.insert ['b'] 2).insert ['a'] 1).insert ['a'] 7).total_nodes =
        ((Trie.new.insert ['b'] 2).insert ['a'] 1).total_nodes ∧
      stripFreq (((Trie.new.insert ['b'] 2).insert ['a'] 1).insert ['a'] 7).root =
        stripFreq ((Trie.new.insert ['b'] 2).insert ['a'] 1).root ∧
      wordObs (((Trie.new.insert ['b'] 2).insert ['a'] 1).insert ['a'] 7).root ['a'] =
        some (true, 7) ∧
      wordObs (((Trie.new.insert ['b'] 2).insert ['a'] 1).insert ['a'] 7).root ['b'] =
        wordObs ((Trie.new.insert ['b'] 2).insert ['a'] 1).root ['b'] :=
  have h := C5_reinsert_updates_only_weight ['a'] 7 (by decide)
  ⟨h.1, h.2.1, h.2.2.1, h.2.2.2.1, h.2.2.2.2 ['b'] (by decide)⟩

/-- C6 fails on the code: `items` walks children in dict insertion order
(`gather` iterates `node.children.items()` unsorted), so after inserting
"b" then "a" the returned sequence is [("b",1), ("a",2)], which is not
sorted by word ascending.  One pair per terminal node is produced, but the
promised determinate sort order is absent. -/
theorem C6_items_unsorted :
    ((Trie.new.insert ['b'] 1).insert ['a'] 2).items =
      [(['b'], 1), (['a'], 2)] := by
  rfl

section TraversalBasics

theorem insKid_perm (p : Char × TrieNode) (l : List (Char × TrieNode)) :
    List.Perm (insKid p l) (p :: l) := by
  induction l with
  | nil => simp [insKid]
  | cons q rest ih =>
    simp only [insKid]
    split
    · exact List.Perm.refl _
    · exact List.Perm.trans (List.Perm.cons q ih) (List.Perm.swap p q rest)

theorem sortedKids_perm (l : List (Char × TrieNode)) : List.Perm (sortedKids l) l := by
  induction l with
  | nil => exact List.Perm.refl _
  | cons p rest ih =>
    simp only [sortedKids]
    exact List.Perm.trans (insKid_perm _ _) (List.Perm.cons p ih)

theorem findNode_append (p s : List Char) :
    ∀ n : TrieNode, findNode n (p ++ s) = (findNode n p).bind (fun m => findNode m s) := by
  induction p with
  | nil => intro n; simp [findNode]
  | cons c rest ih =>
    intro n
    simp only [List.cons_append, findNode]
    cases assocFind c n.children with
    | none => simp
    | some child => simpa using ih child

theorem sizeOf_lt_of_mem_children {c : Char} {t : TrieNode}
    {cs : List (Char × TrieNode)} {w : Bool} {f : Int} (h : (c, t) ∈ cs) :
    sizeOf t < sizeOf (TrieNode.mk cs w f) := by
  have h1 := List.sizeOf_lt_of_mem h
  simp only [Prod.mk.sizeOf_spec, TrieNode.mk.sizeOf_spec] at *
  omega

theorem one_le_sizeOf_node (n : TrieNode) : 1 ≤ sizeOf n := by
  obtain ⟨cs, w, f⟩ := n
  simp only [TrieNode.mk.sizeOf_spec]
  omega

/-- Structural induction on the nested tree: to prove a property of every
node it suffices to prove it for a node from the property of each child. -/
theorem TrieNode.ind_children {P : TrieNode → Prop}
    (h : ∀ cs w f, (∀ c t, (c, t) ∈ cs → P t) → P (.mk cs w f)) :
    ∀ n, P n := by
  have key : ∀ (k : Nat) (n : TrieNode), sizeOf n ≤ k → P n := by
    intro k
    induction k with
    | zero =>
      intro n hle
      have := one_le_sizeOf_node n
      omega
    | succ k ihk =>
      intro n hle
      obtain ⟨cs, w, f⟩ := n
      apply h
      intro c t hm
      apply ihk
      have := sizeOf_lt_of_mem_children (w := w) (f := f) hm
      omega
  intro n
  exact key (sizeOf n) n le_rfl

theorem mem_collectL {it : Int × List Char} {built : List Char} :
    ∀ ks : List (Char × TrieNode),
      (it ∈ collectL ks built ↔ ∃ c t, (c, t) ∈ ks ∧ it ∈ collect t (built ++ [c])) := by
  intro ks
  induction ks with
  | nil => simp [collectL]
  | cons p rest ih =>
    obtain ⟨c, t⟩ := p
    simp only [collectL, List.mem_append, ih]
    constructor
    · rintro (h1 | ⟨c', t', hm, hc⟩)
      · exact ⟨c, t, List.mem_cons_self .., h1⟩
      · exact ⟨c', t', List.mem_cons_of_mem _ hm, hc⟩
    · rintro ⟨c', t', hm, hc⟩
      rcases List.mem_cons.1 hm with h1 | h1
      · obtain ⟨rfl, rfl⟩ : c' = c ∧ t' = t := by simpa using h1
        exact Or.inl hc
      · exact Or.inr ⟨c', t', h1, hc⟩

end TraversalBasics

theorem mem_collect :
    ∀ n : TrieNode, ∀ it : Int × List Char, ∀ built : List Char, wfN n = true →
      (it ∈ collect n built ↔
        ∃ s m, it.2 = built ++ s ∧ findNode n s = some m ∧
          m.is_word = true ∧ m.freq = it.1) := by
  intro n
  induction n using TrieNode.ind_children with
  | h cs w f IH =>
    intro it built hwf
    rw [wfN_mk_iff] at hwf
    constructor
    · intro hmem
      simp only [collect] at hmem
      rcases List.mem_append.1 hmem with h1 | h1
      · have hw : w = true := by
          cases w with
          | false => simp at h1
          | true => rfl
        subst hw
        simp only [if_true] at h1
        have hit : it = (f, built) := by simpa using h1
        subst hit
        exact ⟨[], .mk cs true f, by simp, by simp [findNode], by simp, by simp⟩
      · rw [mem_collectL] at h1
        obtain ⟨c, t, hmem2, hc⟩ := h1
        have hmemcs : (c, t) ∈ cs := (sortedKids_perm cs).mem_iff.1 hmem2
        have hwt : wfN t = true := wfL_mem hwf.2 hmemcs
        obtain ⟨s', m, h2, h3, h4, h5⟩ := (IH c t hmemcs it (built ++ [c]) hwt).1 hc
        refine ⟨c :: s', m, ?_, ?_, h4, h5⟩
        · simpa [List.append_assoc] using h2
        · simp only [findNode, TrieNode.children_mk, mem_assocFind hwf.1 hmemcs]
          exact h3
    · rintro ⟨s, m, h2, h3, h4, h5⟩
      simp only [collect]
      rw [List.mem_append]
      cases s with
      | nil =>
        simp only [findNode, Option.some.injEq] at h3
        left
        have hw : w = true := by rw [← h3] at h4; simpa using h4
        subst hw
        have hf : f = it.1 := by rw [← h3] at h5; simpa using h5
        have hit : it = (f, built) := by
          obtain ⟨i1, i2⟩ := it
          simp only [List.append_nil] at h2
          simp only [h2]
          simp at hf
          simp [hf]
        simp [hit]
      | cons c s' =>
        right
        rw [mem_collectL]
        simp only [findNode, TrieNode.children_mk] at h3
        cases hfind : assocFind c cs with
        | none => rw [hfind] at h3; simp at h3
        | some child =>
          rw [hfind] at h3
          have hmemcs := assocFind_mem hfind
          refine ⟨c, child, (sortedKids_perm cs).mem_iff.2 hmemcs, ?_⟩
          apply (IH c child hmemcs it (built ++ [c]) (wfL_mem hwf.2 hmemcs)).2
          exact ⟨s', m, by simpa [List.append_assoc] using h2, h3, h4, h5⟩

section OrderLemmas

theorem strLt_trans : ∀ {a b c : List Char},
    strLt a b = true → strLt b c = true → strLt a c = true := by
  intro a
  induction a with
  | nil =>
    intro b c hab hbc
    cases b with
    | nil => simp [strLt] at hab
    | cons y bs =>
      cases c with
      | nil => simp [strLt] at hbc
      | cons z cs => simp [strLt]
  | cons x as ih =>
    intro b c hab hbc
    cases b with
    | nil => simp [strLt] at hab
    | cons y bs =>
      cases c with
      | nil => simp [strLt] at hbc
      | cons z cs =>
        simp only [strLt] at hab hbc ⊢
        by_cases hxy : x < y
        · by_cases hyz : y < z
          · simp [lt_trans hxy hyz]
          · simp only [hyz, if_false] at hbc
            by_cases hzy : z < y
            · simp [hzy] at hbc
            · have : y = z := le_antisymm (le_of_not_lt hzy) (le_of_not_lt hyz)
              subst this
              simp [hxy]
        · simp only [hxy, if_false] at hab
          by_cases hyx : y < x
          · simp [hyx] at hab
          · have hxeq : x = y := le_antisymm (le_of_not_lt hyx) (le_of_not_lt hxy)
            subst hxeq
            by_cases hyz : x < z
            · simp [hyz]
            · simp only [hyz, if_false] at hbc ⊢
              by_cases hzy : z < x
              · simp [hzy] at hbc
              · simp only [hzy, if_false] at hbc ⊢
                simp only [if_neg hxy] at hab
                exact ih hab hbc

theorem strLt_connex : ∀ (a b : List Char), a = b ∨ strLt a b = true ∨ strLt b a = true := by
  intro a
  induction a with
  | nil =>
    intro b
    cases b with
    | nil => exact Or.inl rfl
    | cons y bs => exact Or.inr (Or.inl (by simp [strLt]))
  | cons x as ih =>
    intro b
    cases b with
    | nil => exact Or.inr (Or.inr (by simp [strLt]))
    | cons y bs =>
      rcases lt_trichotomy x y with h | h | h
      · exact Or.inr (Or.inl (by simp [strLt, h]))
      · subst h
        rcases ih bs with h2 | h2 | h2
        · exact Or.inl (by rw [h2])
        · exact Or.inr (Or.inl (by simp [strLt, h2]))
        · exact Or.inr (Or.inr (by simp [strLt, h2]))
      · exact Or.inr (Or.inr (by simp [strLt, h]))

theorem strLt_irrefl : ∀ a : List Char, strLt a a = false := by
  intro a
  induction a with
  | nil => rfl
  | cons x as ih => simp [strLt, ih]

theorem itemLt_trans {x y z : Int × List Char}
    (hxy : itemLt x y = true) (hyz : itemLt y z = true) : itemLt x z = true := by
  simp only [itemLt] at *
  by_cases h1 : x.1 < y.1
  · by_cases h2 : y.1 < z.1
    · simp [lt_trans h1 h2]
    · simp only [h2, if_false] at hyz
      by_cases h3 : z.1 < y.1
      · simp [h3] at hyz
      · have : y.1 = z.1 := le_antisymm (le_of_not_lt h3) (le_of_not_lt h2)
        rw [← this]
        simp [h1]
  · simp only [h1, if_false] at hxy
    by_cases h4 : y.1 < x.1
    · simp [h4] at hxy
    · have hxe : x.1 = y.1 := le_antisymm (le_of_not_lt h4) (le_of_not_lt h1)
      simp only [if_neg h4] at hxy
      by_cases h2 : y.1 < z.1
      · simp [hxe ▸ h2]
      · simp only [h2, if_false] at hyz
        by_cases h3 : z.1 < y.1
        · simp [h3] at hyz
        · have hye : y.1 = z.1 := le_antisymm (le_of_not_lt h3) (le_of_not_lt h2)
          have hxz : ¬ x.1 < z.1 := by rw [hxe, hye]; exact lt_irrefl _
          have hzx : ¬ z.1 < x.1 := by rw [hxe, hye]; exact lt_irrefl _
          simp only [if_neg h3] at hyz
          simp only [hxz, hzx, if_false]
          exact strLt_trans hxy hyz

theorem itemLt_connex (x y : Int × List Char) :
    x = y ∨ itemLt x y = true ∨ itemLt y x = true := by
  rcases lt_trichotomy x.1 y.1 with h | h | h
  · exact Or.inr (Or.inl (by simp [itemLt, h]))
  · rcases strLt_connex x.2 y.2 with h2 | h2 | h2
    · left
      obtain ⟨x1, x2⟩ := x
      obtain ⟨y1, y2⟩ := y
      simp only at h h2
      simp [h, h2]
    · refine Or.inr (Or.inl ?_)
      simp [itemLt, h, h2]
    · refine Or.inr (Or.inr ?_)
      simp [itemLt, h.symm, h2]
  · exact Or.inr (Or.inr (by simp [itemLt, h]))

theorem itemLt_irrefl (x : Int × List Char) : itemLt x x = false := by
  simp [itemLt, strLt_irrefl]

end OrderLemmas

section HeapLemmas

theorem heapMin_spec : ∀ (xs : List (Int × List Char)) (m : Int × List Char),
    (heapMin m xs = m ∨ heapMin m xs ∈ xs) ∧
    ∀ y, (y = m ∨ y ∈ xs) →
      (heapMin m xs = y ∨ itemLt (heapMin m xs) y = true) := by
  intro xs
  induction xs with
  | nil =>
    intro m
    refine ⟨Or.inl rfl, ?_⟩
    intro y hy
    rcases hy with rfl | hy2
    · exact Or.inl rfl
    · simp at hy2
  | cons x rest ih =>
    intro m
    by_cases hx : itemLt x m = true
    · have heq : heapMin m (x :: rest) = heapMin x rest := by simp [heapMin, hx]
      obtain ⟨ihmem, ihle⟩ := ih x
      rw [heq]
      constructor
      · rcases ihmem with h | h
        · rw [h]
          exact Or.inr (List.mem_cons_self ..)
        · exact Or.inr (List.mem_cons_of_mem _ h)
      · intro y hy
        rcases hy with rfl | hy2
        · rcases ihle x (Or.inl rfl) with h | h
          · rw [h]
            exact Or.inr hx
          · exact Or.inr (itemLt_trans h hx)
        · rcases List.mem_cons.1 hy2 with rfl | hy3
          · exact ihle y (Or.inl rfl)
          · exact ihle y (Or.inr hy3)
    · have heq : heapMin m (x :: rest) = heapMin m rest := by simp [heapMin, hx]
      obtain ⟨ihmem, ihle⟩ := ih m
      rw [heq]
      constructor
      · rcases ihmem with h | h
        · exact Or.inl h
        · exact Or.inr (List.mem_cons_of_mem _ h)
      · intro y hy
        rcases hy with rfl | hy2
        · exact ihle y (Or.inl rfl)
        · rcases List.mem_cons.1 hy2 with rfl | hy3
          · rcases itemLt_connex y m with he | hlt | hgt
            · subst he
              exact ihle y (Or.inl rfl)
            · exact absurd hlt hx
            · rcases ihle m (Or.inl rfl) with h | h
              · rw [h]
                exact Or.inr hgt
              · exact Or.inr (itemLt_trans h hgt)
          · exact ihle y (Or.inr hy3)

theorem mem_heapPushPop {z a : Int × List Char} {h : List (Int × List Char)}
    (hm : z ∈ heapPushPop h a) : z = a ∨ z ∈ h := by
  unfold heapPushPop at hm
  cases h with
  | nil => simp at hm
  | cons x xs =>
    simp only at hm
    by_cases hc : itemLt (heapMin x xs) a = true
    · rw [if_pos hc] at hm
      rcases List.mem_cons.1 hm with rfl | hm2
      · exact Or.inl rfl
      · exact Or.inr (List.mem_of_mem_erase hm2)
    · rw [if_neg hc] at hm
      exact Or.inr hm

theorem mem_heapStep {k : Int} {z a : Int × List Char} {h : List (Int × List Char)}
    (hm : z ∈ heapStep k h a) : z = a ∨ z ∈ h := by
  unfold heapStep at hm
  by_cases hc : (h.length : Int) < k
  · rw [if_pos hc] at hm
    exact List.mem_cons.1 hm
  · rw [if_neg hc] at hm
    exact mem_heapPushPop hm

theorem mem_foldl_heapStep {k : Int} {z : Int × List Char} :
    ∀ (l h : List (Int × List Char)), z ∈ l.foldl (heapStep k) h → z ∈ h ∨ z ∈ l := by
  intro l
  induction l with
  | nil =>
    intro h hm
    exact Or.inl hm
  | cons a rest ih =>
    intro h hm
    simp only [List.foldl_cons] at hm
    rcases ih (heapStep k h a) hm with h1 | h1
    · rcases mem_heapStep h1 with rfl | h2
      · exact Or.inr (List.mem_cons_self ..)
      · exact Or.inl h2
    · exact Or.inr (List.mem_cons_of_mem _ h1)

theorem length_heapStep {k : Int} {a : Int × List Char} {h : List (Int × List Char)}
    (hl : h.length ≤ k.toNat) : (heapStep k h a).length ≤ k.toNat := by
  unfold heapStep
  by_cases hc : (h.length : Int) < k
  · rw [if_pos hc]
    simp only [List.length_cons]
    omega
  · rw [if_neg hc]
    unfold heapPushPop
    cases h with
    | nil => simp
    | cons x xs =>
      simp only
      by_cases hcc : itemLt (heapMin x xs) a = true
      · rw [if_pos hcc]
        have hmem : heapMin x xs ∈ x :: xs := by
          rcases (heapMin_spec xs x).1 with h1 | h1
          · rw [h1]; exact List.mem_cons_self ..
          · exact List.mem_cons_of_mem _ h1
        simp only [List.length_cons]
        rw [List.length_erase_of_mem hmem]
        simpa using hl
      · rw [if_neg hcc]
        exact hl

theorem length_foldl_heapStep {k : Int} :
    ∀ (l h : List (Int × List Char)), h.length ≤ k.toNat →
      (l.foldl (heapStep k) h).length ≤ k.toNat := by
  intro l
  induction l with
  | nil => intro h hl; exact hl
  | cons a rest ih =>
    intro h hl
    simp only [List.foldl_cons]
    exact ih _ (length_heapStep hl)

end HeapLemmas

theorem insRank_perm (a : Int × List Char) (l : List (Int × List Char)) :
    List.Perm (insRank a l) (a :: l) := by
  induction l with
  | nil => simp [insRank]
  | cons b rest ih =>
    simp only [insRank]
    split
    · exact List.Perm.refl _
    · exact List.Perm.trans (List.Perm.cons b ih) (List.Perm.swap a b rest)

theorem sortItems_perm (l : List (Int × List Char)) : List.Perm (sortItems l) l := by
  induction l with
  | nil => exact List.Perm.refl _
  | cons a rest ih =>
    simp only [sortItems]
    exact List.Perm.trans (insRank_perm _ _) (List.Perm.cons a ih)

theorem wfN_findNode (p : List Char) :
    ∀ n m : TrieNode, wfN n = true → findNode n p = some m → wfN m = true := by
  induction p with
  | nil =>
    intro n m hw h
    simp only [findNode, Option.some.injEq] at h
    exact h ▸ hw
  | cons c rest ih =>
    intro n m hw h
    obtain ⟨cs, wd, f⟩ := n
    rw [wfN_mk_iff] at hw
    simp only [findNode, TrieNode.children_mk] at h
    cases hf : assocFind c cs with
    | none => rw [hf] at h; simp at h
    | some child =>
      rw [hf] at h
      exact ih child m (wfL_mem hw.2 (assocFind_mem hf)) h

theorem isPrefixOf_append (p s : List Char) : p.isPrefixOf (p ++ s) = true := by
  induction p with
  | nil => simp [List.isPrefixOf]
  | cons c rest ih => simp [List.isPrefixOf, ih]

theorem complete_sound_item {t : Trie} {p : List Char} {k : Int}
    {n : TrieNode} (hwf : wfN t.root = true) (hn : findNode t.root p = some n)
    {f : Int} {w : List Char}
    (hm : (f, w) ∈ (collect n p).foldl (heapStep k) []) :
    p.isPrefixOf w = true ∧ t.contains w = true ∧
      (findNode t.root w).map TrieNode.freq = some f := by
  have h1 : (f, w) ∈ collect n p := by
    rcases mem_foldl_heapStep _ _ hm with h | h
    · simp at h
    · exact h
  have hwn := wfN_findNode p t.root n hwf hn
  obtain ⟨s, m, h2, h3, h4, h5⟩ := (mem_collect n (f, w) p hwn).1 h1
  simp only at h2 h5
  have hfind : findNode t.root w = some m := by
    rw [h2, findNode_append, hn]
    exact h3
  refine ⟨?_, ?_, ?_⟩
  · rw [h2]
    exact isPrefixOf_append p s
  · rw [contains_eq, hfind]
    simpa using h4
  · rw [hfind]
    simpa using h5

/-- C8: every word returned by complete(p, k) has p as a prefix and is
present in the index via contains, and at most k words are returned (none
when k is non-positive). -/
theorem C8_complete_sound {t : Trie} (p : List Char) (k : Int) (h : Reachable t) :
    (∀ w ∈ t.complete p k, p.isPrefixOf w = true ∧ t.contains w = true) ∧
      (t.complete p k).length ≤ k.toNat := by
  have hwf := wf_reachable h
  unfold Trie.complete
  cases hn : findNode t.root p with
  | none => simp
  | some n =>
    constructor
    · intro w hw
      simp only [List.mem_map] at hw
      obtain ⟨⟨f, w'⟩, hmem, hw2⟩ := hw
      simp only at hw2
      subst hw2
      have hmem2 : (f, w') ∈ (collect n p).foldl (heapStep k) [] :=
        (sortItems_perm _).mem_iff.1 hmem
      have hs := complete_sound_item hwf hn hmem2
      exact ⟨hs.1, hs.2.1⟩
    · rw [List.length_map, (sortItems_perm _).length_eq]
      exact length_foldl_heapStep _ _ (by simp)

/-- Witness for C8 on a concrete index. -/
theorem C8_complete_sound_witness :
    (∀ w ∈ (Trie.new.insert ['a'] 1).complete [] 5,
        List.isPrefixOf [] w = true ∧ (Trie.new.insert ['a'] 1).contains w = true) ∧
      ((Trie.new.insert ['a'] 1).complete [] 5).length ≤ (5 : Int).toNat :=
  C8_complete_sound [] 5 (Reachable.ins _ _ _ Reachable.init)

theorem foldl_heapStep_nonpos {k : Int} (hk : k ≤ 0) :
    ∀ l : List (Int × List Char), l.foldl (heapStep k) [] = [] := by
  intro l
  induction l with
  | nil => rfl
  | cons a rest ih =>
    have hstep : heapStep k [] a = [] := by
      unfold heapStep heapPushPop
      have : ¬ (([] : List (Int × List Char)).length : Int) < k := by simp; omega
      rw [if_neg this]
    simp only [List.foldl_cons, hstep]
    exact ih

/-- C9: complete returns the empty sequence (and never fails) when the
prefix has no node, when k is non-positive, or when no stored word has the
prefix. -/
theorem C9_complete_empty {t : Trie} (p : List Char) (k : Int) (h : Reachable t)
    (hcase : findNode t.root p = none ∨ k ≤ 0 ∨
      (∀ w, t.contains w = true → p.isPrefixOf w = false)) :
    t.complete p k = [] := by
  have hwf := wf_reachable h
  unfold Trie.complete
  cases hn : findNode t.root p with
  | none => rfl
  | some n =>
    rcases hcase with h1 | h1 | h1
    · rw [hn] at h1
      exact absurd h1 (by simp)
    · simp [foldl_heapStep_nonpos h1, sortItems]
    · have hnil : collect n p = [] := by
        cases hc : collect n p with
        | nil => rfl
        | cons z zs =>
          exfalso
          obtain ⟨f, w⟩ := z
          have hz : (f, w) ∈ collect n p := by rw [hc]; exact List.mem_cons_self ..
          have hwn := wfN_findNode p t.root n hwf hn
          obtain ⟨s, m, h2, h3, h4, h5⟩ := (mem_collect n (f, w) p hwn).1 hz
          simp only at h2
          have hcont : t.contains w = true := by
            rw [contains_eq, h2, findNode_append, hn]
            simp only [Option.some_bind]
            rw [h3]
            simpa using h4
          have hpre : p.isPrefixOf w = true := by
            rw [h2]
            exact isPrefixOf_append p s
          rw [h1 w hcont] at hpre
          exact Bool.false_ne_true hpre
      simp [hnil, sortItems]

/-- Witness for C9 with a non-positive k on the fresh index. -/
theorem C9_complete_empty_witness : Trie.new.complete ['a'] (-1) = [] :=
  C9_complete_empty ['a'] (-1) Reachable.init (Or.inr (Or.inl (by decide)))

section CollectNodup

theorem collect_extends :
    ∀ n : TrieNode, ∀ (built : List Char) (it : Int × List Char),
      it ∈ collect n built → ∃ s, it.2 = built ++ s := by
  intro n
  induction n using TrieNode.ind_children with
  | h cs w f IH =>
    intro built it hmem
    simp only [collect] at hmem
    rcases List.mem_append.1 hmem with h1 | h1
    · refine ⟨[], ?_⟩
      cases w with
      | false => simp at h1
      | true =>
        have : it = (f, built) := by simpa using h1
        simp [this]
    · rw [mem_collectL] at h1
      obtain ⟨c, t, hmem2, hc⟩ := h1
      obtain ⟨s', hs'⟩ := IH c t ((sortedKids_perm cs).mem_iff.1 hmem2) (built ++ [c]) it hc
      exact ⟨c :: s', by simpa [List.append_assoc] using hs'⟩

theorem assocFind_eq_none_iff_keys {c : Char} {l : List (Char × TrieNode)} :
    assocFind c l = none ↔ c ∉ l.map Prod.fst := by
  induction l with
  | nil => simp [assocFind]
  | cons p rest ih =>
    obtain ⟨a, b⟩ := p
    by_cases hac : a = c
    · subst hac
      simp [assocFind]
    · simp only [assocFind, hac, if_false, List.map_cons, List.mem_cons, ih]
      constructor
      · intro h hmem
        rcases hmem with h1 | h1
        · exact hac h1.symm
        · exact h h1
      · intro h hmem
        exact h (Or.inr hmem)

theorem keysNodup_iff {l : List (Char × TrieNode)} :
    keysNodup l = true ↔ (l.map Prod.fst).Nodup := by
  induction l with
  | nil => simp [keysNodup]
  | cons p rest ih =>
    obtain ⟨a, b⟩ := p
    simp only [keysNodup, Bool.and_eq_true, List.map_cons, List.nodup_cons, ih,
      Option.isNone_iff_eq_none, assocFind_eq_none_iff_keys]

theorem keysNodup_sortedKids {l : List (Char × TrieNode)} (h : keysNodup l = true) :
    keysNodup (sortedKids l) = true := by
  rw [keysNodup_iff] at h ⊢
  exact ((sortedKids_perm l).map Prod.fst).nodup_iff.2 h

theorem collect_words_nodup :
    ∀ n : TrieNode, ∀ built : List Char, wfN n = true →
      ((collect n built).map (fun q => q.2)).Nodup := by
  intro n
  induction n using TrieNode.ind_children with
  | h cs w f IH =>
    intro built hwf
    rw [wfN_mk_iff] at hwf
    have main : ∀ ks : List (Char × TrieNode), (∀ p ∈ ks, p ∈ cs) → keysNodup ks = true →
        ((collectL ks built).map (fun q => q.2)).Nodup ∧
        (∀ it ∈ collectL ks built, ∃ c t s, (c, t) ∈ ks ∧ it.2 = built ++ c :: s) := by
      intro ks
      induction ks with
      | nil => simp [collectL]
      | cons p rest ihks =>
        obtain ⟨c, t⟩ := p
        intro hsub hnd
        simp only [keysNodup, Bool.and_eq_true, Option.isNone_iff_eq_none] at hnd
        have hrest := ihks (fun q hq => hsub q (List.mem_cons_of_mem _ hq)) hnd.2
        have htmem : (c, t) ∈ cs := hsub (c, t) (List.mem_cons_self ..)
        have htn : ((collect t (built ++ [c])).map (fun q => q.2)).Nodup :=
          IH c t htmem (built ++ [c]) (wfL_mem hwf.2 htmem)
        constructor
        · simp only [collectL, List.map_append]
          rw [List.nodup_append]
          refine ⟨htn, hrest.1, ?_⟩
          intro w1 hw1 hw2
          simp only [List.mem_map] at hw1 hw2
          obtain ⟨it1, hit1, rfl⟩ := hw1
          obtain ⟨it2, hit2, heq2⟩ := hw2
          obtain ⟨s1, hs1⟩ := collect_extends t (built ++ [c]) it1 hit1
          obtain ⟨c', t', s2, hmem', hs2⟩ := hrest.2 it2 hit2
          have hcc : c' ≠ c := by
            intro hcc
            subst hcc
            have := assocFind_isSome_of_mem hmem'
            rw [hnd.1] at this
            simp at this
          rw [heq2] at hs2
          rw [hs2] at hs1
          have : c' :: s2 = c :: s1 := by
            have h0 : built ++ c' :: s2 = built ++ c :: s1 := by
              simpa [List.append_assoc] using hs1
            exact List.append_cancel_left h0
          simp at this
          exact hcc this.1
        · intro it hit
          simp only [collectL, List.mem_append] at hit
          rcases hit with h1 | h1
          · obtain ⟨s1, hs1⟩ := collect_extends t (built ++ [c]) it h1
            exact ⟨c, t, s1, List.mem_cons_self .., by simpa [List.append_assoc] using hs1⟩
          · obtain ⟨c', t', s2, hmem', hs2⟩ := hrest.2 it h1
            exact ⟨c', t', s2, List.mem_cons_of_mem _ hmem', hs2⟩
    have hsorted := main (sortedKids cs) (fun q hq => (sortedKids_perm cs).mem_iff.1 hq)
      (keysNodup_sortedKids hwf.1)
    simp only [collect, List.map_append]
    cases w with
    | false => simpa using hsorted.1
    | true =>
      simp only [if_true, List.map_cons, List.map_nil]
      rw [List.singleton_append, List.nodup_cons]
      refine ⟨?_, hsorted.1⟩
      intro hmem
      simp only [List.mem_map] at hmem
      obtain ⟨it, hit, heq⟩ := hmem
      obtain ⟨c', t', s2, _, hs2⟩ := hsorted.2 it hit
      rw [heq] at hs2
      have : ([] : List Char) = c' :: s2 := by
        have h0 : built ++ ([] : List Char) = built ++ c' :: s2 := by
          rw [List.append_nil]
          exact hs2
        exact List.append_cancel_left h0
      simp at this

end CollectNodup

section TopK

theorem heapStep_inv {k : Int} {seen H : List (Int × List Char)} {a : Int × List Char}
    (_hsnd : seen.Nodup) (ha : a ∉ seen)
    (h1 : H.Nodup) (h2 : ∀ x ∈ H, x ∈ seen)
    (h3 : H.length = min k.toNat seen.length)
    (h4 : ∀ y ∈ seen, y ∉ H → ∀ x ∈ H, itemLt y x = true) :
    (heapStep k H a).Nodup ∧ (∀ x ∈ heapStep k H a, x ∈ seen ++ [a]) ∧
    (heapStep k H a).length = min k.toNat (seen ++ [a]).length ∧
    (∀ y ∈ seen ++ [a], y ∉ heapStep k H a → ∀ x ∈ heapStep k H a, itemLt y x = true) := by
  unfold heapStep
  by_cases hlt : (H.length : Int) < k
  · rw [if_pos hlt]
    have hHseen : H.length = seen.length := by omega
    have hperm : List.Perm H seen := by
      have hsub : H.Subperm seen := h1.subperm h2
      exact hsub.perm_of_length_le (by omega)
    refine ⟨?_, ?_, ?_, ?_⟩
    · exact List.nodup_cons.2 ⟨fun hmem => ha (h2 a hmem), h1⟩
    · intro x hx
      rcases List.mem_cons.1 hx with rfl | hx2
      · simp
      · exact List.mem_append_left _ (h2 x hx2)
    · simp only [List.length_cons, List.length_append, List.length_singleton,
        List.length_nil]
      omega
    · intro y hy hynot x hx
      rcases List.mem_append.1 hy with hy1 | hy1
      · exact absurd (List.mem_cons_of_mem _ (hperm.mem_iff.2 hy1)) hynot
      · have : y = a := by simpa using hy1
        subst this
        exact absurd (List.mem_cons_self ..) hynot
  · rw [if_neg hlt]
    unfold heapPushPop
    cases H with
    | nil =>
      have hk0 : k.toNat = 0 := by
        simp only [List.length_nil] at hlt
        omega
      refine ⟨List.nodup_nil, by simp, by simp [hk0], by simp⟩
    | cons x0 xs =>
      simp only
      have hmem_m : heapMin x0 xs ∈ x0 :: xs := by
        rcases (heapMin_spec xs x0).1 with h | h
        · rw [h]; exact List.mem_cons_self ..
        · exact List.mem_cons_of_mem _ h
      have hmin : ∀ y ∈ x0 :: xs, heapMin x0 xs = y ∨ itemLt (heapMin x0 xs) y = true := by
        intro y hy
        exact (heapMin_spec xs x0).2 y (List.mem_cons.1 hy)
      have hfull : (x0 :: xs).length = k.toNat := by
        have hlen := List.length_cons x0 xs
        omega
      have hktoseen : k.toNat ≤ seen.length := by omega
      by_cases hrepl : itemLt (heapMin x0 xs) a = true
      · rw [if_pos hrepl]
        have hnd' : ((x0 :: xs).erase (heapMin x0 xs)).Nodup := h1.erase _
        have herase_sub : ∀ z ∈ (x0 :: xs).erase (heapMin x0 xs), z ∈ x0 :: xs :=
          fun z hz => List.mem_of_mem_erase hz
        have hlen_er : ((x0 :: xs).erase (heapMin x0 xs)).length = (x0 :: xs).length - 1 :=
          List.length_erase_of_mem hmem_m
        refine ⟨?_, ?_, ?_, ?_⟩
        · exact List.nodup_cons.2 ⟨fun hmem => ha (h2 a (herase_sub a hmem)), hnd'⟩
        · intro z hz
          rcases List.mem_cons.1 hz with rfl | hz2
          · exact List.mem_append_right _ (by simp)
          · exact List.mem_append_left _ (h2 z (herase_sub z hz2))
        · have hpos : 1 ≤ (x0 :: xs).length := by simp
          simp only [List.length_cons, List.length_append, List.length_singleton,
            List.length_nil]
          rw [hlen_er, hfull]
          omega
        · intro y hy hynot z hz
          rcases List.mem_append.1 hy with hy1 | hy1
          · by_cases hym : y = heapMin x0 xs
            · subst hym
              rcases List.mem_cons.1 hz with rfl | hz2
              · exact hrepl
              · have hzmem := (List.Nodup.mem_erase_iff h1).1 hz2
                rcases hmin z hzmem.2 with he | hlt2
                · exact absurd he.symm hzmem.1
                · exact hlt2
            · have hyH : y ∉ x0 :: xs := by
                intro hyH
                exact hynot (List.mem_cons_of_mem _
                  ((List.Nodup.mem_erase_iff h1).2 ⟨hym, hyH⟩))
              have hdrop := h4 y hy1 hyH
              rcases List.mem_cons.1 hz with rfl | hz2
              · exact itemLt_trans (hdrop _ hmem_m) hrepl
              · exact hdrop z (herase_sub z hz2)
          · have : y = a := by simpa using hy1
            subst this
            exact absurd (List.mem_cons_self ..) hynot
      · rw [if_neg hrepl]
        refine ⟨h1, fun z hz => List.mem_append_left _ (h2 z hz), ?_, ?_⟩
        · simp only [List.length_append, List.length_singleton]
          omega
        · intro y hy hynot z hz
          rcases List.mem_append.1 hy with hy1 | hy1
          · exact h4 y hy1 hynot z hz
          · have hya : y = a := by simpa using hy1
            subst hya
            have hym : y ≠ heapMin x0 xs := by
              intro he
              exact ha (he ▸ h2 _ hmem_m)
            have hylt : itemLt y (heapMin x0 xs) = true := by
              rcases itemLt_connex y (heapMin x0 xs) with he | hl | hg
              · exact absurd he hym
              · exact hl
              · exact absurd hg hrepl
            rcases hmin z hz with he | hl
            · rw [← he]
              exact hylt
            · exact itemLt_trans hylt hl

theorem foldl_heapStep_inv {k : Int} :
    ∀ (l seen H : List (Int × List Char)), seen.Nodup → (∀ z ∈ l, z ∉ seen) → l.Nodup →
      H.Nodup → (∀ x ∈ H, x ∈ seen) → H.length = min k.toNat seen.length →
      (∀ y ∈ seen, y ∉ H → ∀ x ∈ H, itemLt y x = true) →
      ((l.foldl (heapStep k) H).Nodup ∧
       (∀ x ∈ l.foldl (heapStep k) H, x ∈ seen ++ l) ∧
       (l.foldl (heapStep k) H).length = min k.toNat (seen ++ l).length ∧
       (∀ y ∈ seen ++ l, y ∉ l.foldl (heapStep k) H →
          ∀ x ∈ l.foldl (heapStep k) H, itemLt y x = true)) := by
  intro l
  induction l with
  | nil =>
    intro seen H hsnd _ _ h1 h2 h3 h4
    simp only [List.foldl_nil, List.append_nil]
    exact ⟨h1, h2, h3, h4⟩
  | cons a rest ih =>
    intro seen H hsnd hnew hlnd h1 h2 h3 h4
    have ha : a ∉ seen := hnew a (List.mem_cons_self ..)
    have hstep := heapStep_inv hsnd ha h1 h2 h3 h4
    have hsnd' : (seen ++ [a]).Nodup := by
      rw [List.nodup_append]
      refine ⟨hsnd, by simp, ?_⟩
      intro z hz hz2
      have : z = a := by simpa using hz2
      subst this
      exact ha hz
    have hnew' : ∀ z ∈ rest, z ∉ seen ++ [a] := by
      intro z hz hmem
      rcases List.mem_append.1 hmem with hm1 | hm1
      · exact hnew z (List.mem_cons_of_mem _ hz) hm1
      · have : z = a := by simpa using hm1
        subst this
        exact (List.nodup_cons.1 hlnd).1 hz
    have hlnd' : rest.Nodup := (List.nodup_cons.1 hlnd).2
    have hrec := ih (seen ++ [a]) (heapStep k H a) hsnd' hnew' hlnd'
      hstep.1 hstep.2.1 hstep.2.2.1 hstep.2.2.2
    simp only [List.foldl_cons]
    have hassoc : seen ++ [a] ++ rest = seen ++ a :: rest := by
      simp [List.append_assoc]
    rw [hassoc] at hrec
    exact hrec

end TopK

section RankLemmas

theorem rankLtB_eq_itemLt (x y : Int × List Char) :
    rankLtB x y = itemLt (-x.1, x.2) (-y.1, y.2) := by
  simp only [rankLtB, itemLt, neg_lt_neg_iff]

theorem rankLtB_trans {x y z : Int × List Char}
    (h1 : rankLtB x y = true) (h2 : rankLtB y z = true) : rankLtB x z = true := by
  rw [rankLtB_eq_itemLt] at *
  exact itemLt_trans h1 h2

theorem rankLtB_connex (x y : Int × List Char) :
    x = y ∨ rankLtB x y = true ∨ rankLtB y x = true := by
  rcases itemLt_connex (-x.1, x.2) (-y.1, y.2) with he | hl | hg
  · left
    obtain ⟨x1, x2⟩ := x
    obtain ⟨y1, y2⟩ := y
    simp only [Prod.mk.injEq, neg_inj] at he
    simp [he.1, he.2]
  · exact Or.inr (Or.inl (by rw [rankLtB_eq_itemLt]; exact hl))
  · exact Or.inr (Or.inr (by rw [rankLtB_eq_itemLt]; exact hg))

theorem mem_insRank {a z : Int × List Char} {l : List (Int × List Char)}
    (h : z ∈ insRank a l) : z = a ∨ z ∈ l := by
  have := (insRank_perm a l).mem_iff.1 h
  simpa using this

theorem pairwise_insRank {a : Int × List Char} :
    ∀ l : List (Int × List Char),
      List.Pairwise (fun x y => rankLtB x y = true ∨ x = y) l →
      List.Pairwise (fun x y => rankLtB x y = true ∨ x = y) (insRank a l) := by
  intro l
  induction l with
  | nil => intro _; simp [insRank]
  | cons b rest ih =>
    intro hp
    obtain ⟨hb, hrest⟩ := List.pairwise_cons.1 hp
    simp only [insRank]
    split
    · rename_i hab
      apply List.pairwise_cons.2
      refine ⟨?_, hp⟩
      intro z hz
      rcases List.mem_cons.1 hz with rfl | hz2
      · exact Or.inl hab
      · rcases hb z hz2 with h1 | h1
        · exact Or.inl (rankLtB_trans hab h1)
        · subst h1
          exact Or.inl hab
    · rename_i hab
      apply List.pairwise_cons.2
      refine ⟨?_, ih hrest⟩
      intro z hz
      rcases mem_insRank hz with rfl | hz2
      · rcases rankLtB_connex z b with he | hl | hg
        · exact Or.inr he.symm
        · exact absurd hl hab
        · exact Or.inl hg
      · exact hb z hz2

theorem pairwise_sortItems (l : List (Int × List Char)) :
    List.Pairwise (fun x y => rankLtB x y = true ∨ x = y) (sortItems l) := by
  induction l with
  | nil => simp [sortItems]
  | cons a rest ih => exact pairwise_insRank _ ih

theorem pairwise_sortItems_strict {l : List (Int × List Char)} (h : l.Nodup) :
    List.Pairwise (fun x y => rankLtB x y = true) (sortItems l) := by
  have hnd : (sortItems l).Nodup := (sortItems_perm l).nodup_iff.2 h
  have hp := pairwise_sortItems l
  have hcomb := List.Pairwise.and hp hnd
  apply hcomb.imp
  intro a b hab
  rcases hab.1 with h1 | h1
  · exact h1
  · exact absurd h1 hab.2

end RankLemmas

section MatchCountLemmas

theorem countWordsL_perm {l₁ l₂ : List (Char × TrieNode)} (h : List.Perm l₁ l₂) :
    countWordsL l₁ = countWordsL l₂ := by
  induction h with
  | nil => rfl
  | cons x _ ih =>
    obtain ⟨c, t⟩ := x
    simp [countWordsL, ih]
  | swap x y l =>
    obtain ⟨c1, t1⟩ := x
    obtain ⟨c2, t2⟩ := y
    simp only [countWordsL]
    omega
  | trans _ _ ih1 ih2 => exact ih1.trans ih2

theorem collect_length :
    ∀ n : TrieNode, ∀ built : List Char, (collect n built).length = countWords n := by
  intro n
  induction n using TrieNode.ind_children with
  | h cs w f IH =>
    intro built
    have hL : ∀ ks : List (Char × TrieNode), (∀ p ∈ ks, p ∈ cs) →
        (collectL ks built).length = countWordsL ks := by
      intro ks
      induction ks with
      | nil => intro _; simp [collectL, countWordsL]
      | cons p rest ihks =>
        obtain ⟨c, t⟩ := p
        intro hsub
        simp only [collectL, List.length_append, countWordsL]
        rw [IH c t (hsub (c, t) (List.mem_cons_self ..)) (built ++ [c]),
          ihks (fun q hq => hsub q (List.mem_cons_of_mem _ hq))]
    simp only [collect, List.length_append, countWords]
    rw [hL (sortedKids cs) (fun q hq => (sortedKids_perm cs).mem_iff.1 hq),
      countWordsL_perm (sortedKids_perm cs)]
    cases w <;> simp

theorem isPrefixOf_iff_exists {p w : List Char} :
    p.isPrefixOf w = true ↔ ∃ s, w = p ++ s := by
  induction p generalizing w with
  | nil =>
    simp [List.isPrefixOf]
  | cons c rest ih =>
    cases w with
    | nil => simp [List.isPrefixOf]
    | cons d w' =>
      simp only [List.isPrefixOf, Bool.and_eq_true, beq_iff_eq, ih, List.cons_append,
        List.cons.injEq]
      constructor
      · rintro ⟨rfl, s, rfl⟩
        exact ⟨s, rfl, rfl⟩
      · rintro ⟨s, rfl, rfl⟩
        exact ⟨rfl, s, rfl⟩

end MatchCountLemmas

/-- C1 fails as stated at weight ties: with "a", "b", "c" all stored at
weight 1 and k = 2, the two highest-ranked words under (weight descending,
word ascending) are "a" and "b", but complete returns ["b", "c"]: the heap
holds (weight, word) tuples, so among minimum-weight candidates it evicts
the lexicographically smallest word instead of the largest. -/
theorem C1_counterexample :
    (((Trie.new.insert ['a'] 1).insert ['b'] 1).insert ['c'] 1).complete [] 2 =
        [['b'], ['c']] ∧
      wordObs (((Trie.new.insert ['a'] 1).insert ['b'] 1).insert ['c'] 1).root ['a'] =
        some (true, 1) ∧
      wordObs (((Trie.new.insert ['a'] 1).insert ['b'] 1).insert ['c'] 1).root ['c'] =
        some (true, 1) ∧
      strLt ['a'] ['c'] = true := by
  refine ⟨?_, by decide, by decide, by decide⟩
  simp [Trie.new, Trie.insert, insertAux, assocFind, assocSet, Trie.complete,
    findNode, collect, collectL, sortedKids, insKid, heapStep, heapPushPop, heapMin,
    itemLt, strLt, sortItems, insRank, rankLtB]

/-- C1 amended: the bounded candidate set is ranked by the heap order
(weight ascending, then word ascending), so the member evicted on overflow
is the smallest under that order — among minimum-weight candidates the
lexicographically smallest word, not the largest.  Consequently the result
consists of the min(k, #matches) discovered items that are largest in the
heap order, sorted by descending weight then ascending word. -/
theorem C1_bounded_candidate_set {t : Trie} (p : List Char) (k : Int)
    {n : TrieNode} (h : Reachable t) (hn : findNode t.root p = some n) :
    ∃ H : List (Int × List Char),
      H.Nodup ∧ (∀ x ∈ H, x ∈ collect n p) ∧
      H.length = min k.toNat (collect n p).length ∧
      (∀ y ∈ collect n p, y ∉ H → ∀ x ∈ H, itemLt y x = true) ∧
      t.complete p k = (sortItems H).map (fun q => q.2) ∧
      List.Pairwise (fun x y => rankLtB x y = true) (sortItems H) := by
  have hwf := wf_reachable h
  have hwn := wfN_findNode p t.root n hwf hn
  have hnodup : (collect n p).Nodup := (collect_words_nodup n p hwn).of_map
  have hinv := foldl_heapStep_inv (k := k) (collect n p) [] [] List.nodup_nil
    (by simp) hnodup List.nodup_nil (by simp) (by simp) (by simp)
  refine ⟨(collect n p).foldl (heapStep k) [], hinv.1, ?_, ?_, ?_, ?_, ?_⟩
  · intro x hx
    have := hinv.2.1 x hx
    simpa using this
  · have := hinv.2.2.1
    simpa using this
  · intro y hy hynot x hx
    exact hinv.2.2.2 y (by simpa using hy) hynot x hx
  · simp [Trie.complete, hn]
  · exact pairwise_sortItems_strict hinv.1

/-- Witness for the amended C1 on the tie-breaking example. -/
theorem C1_bounded_candidate_set_witness :
    ∃ H : List (Int × List Char),
      H.Nodup ∧
      (∀ x ∈ H,
        x ∈ collect (((Trie.new.insert ['a'] 1).insert ['b'] 1).insert ['c'] 1).root []) ∧
      H.length = min (2 : Int).toNat
        (collect (((Trie.new.insert ['a'] 1).insert ['b'] 1).insert ['c'] 1).root []).length ∧
      (∀ y ∈ collect (((Trie.new.insert ['a'] 1).insert ['b'] 1).insert ['c'] 1).root [],
        y ∉ H → ∀ x ∈ H, itemLt y x = true) ∧
      (((Trie.new.insert ['a'] 1).insert ['b'] 1).insert ['c'] 1).complete [] 2 =
        (sortItems H).map (fun q => q.2) ∧
      List.Pairwise (fun x y => rankLtB x y = true) (sortItems H) :=
  C1_bounded_candidate_set [] 2
    (Reachable.ins _ _ _ (Reachable.ins _ _ _ (Reachable.ins _ _ _ Reachable.init))) rfl

theorem pairwise_of_mem_imp {α : Type} {R S : α → α → Prop} :
    ∀ {l : List α}, (∀ a b, a ∈ l → b ∈ l → R a b → S a b) → l.Pairwise R → l.Pairwise S := by
  intro l
  induction l with
  | nil => intro _ _; exact List.Pairwise.nil
  | cons x rest ih =>
    intro himp hp
    obtain ⟨hx, hrest⟩ := List.pairwise_cons.1 hp
    apply List.pairwise_cons.2
    constructor
    · intro z hz
      exact himp x z (List.mem_cons_self ..) (List.mem_cons_of_mem _ hz) (hx z hz)
    · exact ih (fun a b ha hb => himp a b (List.mem_cons_of_mem _ ha)
        (List.mem_cons_of_mem _ hb)) hrest

theorem rankLtB_cases {f1 f2 : Int} {w1 w2 : List Char}
    (h : rankLtB (f1, w1) (f2, w2) = true) :
    f1 > f2 ∨ (f1 = f2 ∧ strLt w1 w2 = true) := by
  simp only [rankLtB] at h
  by_cases h1 : f2 < f1
  · exact Or.inl h1
  · rw [if_neg h1] at h
    by_cases h2 : f1 < f2
    · simp [h2] at h
    · rw [if_neg h2] at h
      exact Or.inr ⟨le_antisymm (le_of_not_lt h1) (le_of_not_lt h2), h⟩

/-- C7: when at most k stored words carry the prefix (k at least 1),
complete(p, k) returns exactly those words, with any higher-weight word
preceding any lower-weight one and ties on weight ordered by ascending
word. -/
theorem C7_complete_returns_all_matches {t : Trie} (p : List Char) (k : Int)
    (h : Reachable t) (hk : 1 ≤ k) (hcount : (matchCount t p : Int) ≤ k) :
    (∀ w, w ∈ t.complete p k ↔ (t.contains w = true ∧ p.isPrefixOf w = true)) ∧
    List.Pairwise (fun w1 w2 => freqOf t w1 > freqOf t w2 ∨
      (freqOf t w1 = freqOf t w2 ∧ strLt w1 w2 = true)) (t.complete p k) := by
  have hwf := wf_reachable h
  cases hn : findNode t.root p with
  | none =>
    have hempty : t.complete p k = [] := by simp [Trie.complete, hn]
    rw [hempty]
    refine ⟨?_, by simp⟩
    intro w
    simp only [List.not_mem_nil, false_iff, not_and]
    intro hcont hpre
    obtain ⟨s, rfl⟩ := isPrefixOf_iff_exists.1 hpre
    rw [contains_eq, findNode_append, hn] at hcont
    simp at hcont
  | some n =>
    have hwn := wfN_findNode p t.root n hwf hn
    have hnodup : (collect n p).Nodup := (collect_words_nodup n p hwn).of_map
    have hinv := foldl_heapStep_inv (k := k) (collect n p) [] [] List.nodup_nil
      (by simp) hnodup List.nodup_nil (by simp) (by simp) (by simp)
    have hlen : ((collect n p).foldl (heapStep k) []).length = (collect n p).length := by
      have h3 := hinv.2.2.1
      simp only [List.nil_append] at h3
      have hcl : (collect n p).length = countWords n := collect_length n p
      have hmc : matchCount t p = countWords n := by simp [matchCount, hn]
      omega
    have hperm : List.Perm ((collect n p).foldl (heapStep k) []) (collect n p) := by
      have hsub : ((collect n p).foldl (heapStep k) []).Subperm (collect n p) :=
        hinv.1.subperm (fun x hx => by simpa using hinv.2.1 x hx)
      exact hsub.perm_of_length_le (by omega)
    have hout : t.complete p k =
        (sortItems ((collect n p).foldl (heapStep k) [])).map (fun q => q.2) := by
      simp [Trie.complete, hn]
    constructor
    · intro w
      rw [hout]
      simp only [List.mem_map]
      constructor
      · rintro ⟨it, hmem, rfl⟩
        obtain ⟨fq, w'⟩ := it
        have hmem2 : (fq, w') ∈ (collect n p).foldl (heapStep k) [] :=
          (sortItems_perm _).mem_iff.1 hmem
        have hs := complete_sound_item hwf hn hmem2
        exact ⟨hs.2.1, hs.1⟩
      · rintro ⟨hcont, hpre⟩
        obtain ⟨s, rfl⟩ := isPrefixOf_iff_exists.1 hpre
        rw [contains_eq] at hcont
        cases hfind : findNode t.root (p ++ s) with
        | none => rw [hfind] at hcont; simp at hcont
        | some m =>
          rw [hfind] at hcont
          simp at hcont
          have hfn : findNode n s = some m := by
            rw [findNode_append, hn] at hfind
            simpa using hfind
          have hitem : (m.freq, p ++ s) ∈ collect n p :=
            (mem_collect n (m.freq, p ++ s) p hwn).2 ⟨s, m, rfl, hfn, hcont, rfl⟩
          exact ⟨(m.freq, p ++ s),
            (sortItems_perm _).mem_iff.2 (hperm.mem_iff.2 hitem), rfl⟩
    · rw [hout]
      rw [List.pairwise_map]
      have hstrict := pairwise_sortItems_strict hinv.1
      apply pairwise_of_mem_imp _ hstrict
      intro a b ha hb hab
      obtain ⟨f1, w1⟩ := a
      obtain ⟨f2, w2⟩ := b
      have ha2 := complete_sound_item hwf hn ((sortItems_perm _).mem_iff.1 ha)
      have hb2 := complete_sound_item hwf hn ((sortItems_perm _).mem_iff.1 hb)
      have hfa : freqOf t w1 = f1 := by
        simp only [freqOf]
        rw [ha2.2.2]
        rfl
      have hfb : freqOf t w2 = f2 := by
        simp only [freqOf]
        rw [hb2.2.2]
        rfl
      rw [hfa, hfb]
      exact rankLtB_cases hab

/-- Witness for C7 on a two-word index below the prefix "a". -/
theorem C7_complete_returns_all_matches_witness :
    (['a', 'b'] ∈ ((Trie.new.insert ['a'] 1).insert ['a', 'b'] 2).complete ['a'] 5 ↔
      (((Trie.new.insert ['a'] 1).insert ['a', 'b'] 2).contains ['a', 'b'] = true ∧
        List.isPrefixOf ['a'] ['a', 'b'] = true)) ∧
    List.Pairwise (fun w1 w2 =>
        freqOf ((Trie.new.insert ['a'] 1).insert ['a', 'b'] 2) w1 >
            freqOf ((Trie.new.insert ['a'] 1).insert ['a', 'b'] 2) w2 ∨
          (freqOf ((Trie.new.insert ['a'] 1).insert ['a', 'b'] 2) w1 =
              freqOf ((Trie.new.insert ['a'] 1).insert ['a', 'b'] 2) w2 ∧
            strLt w1 w2 = true))
      (((Trie.new.insert ['a'] 1).insert ['a', 'b'] 2).complete ['a'] 5) :=
  have h := C7_complete_returns_all_matches ['a'] 5
    (Reachable.ins _ _ _ (Reachable.ins _ _ _ Reachable.init)) (by decide) (by decide)
  ⟨h.1 ['a', 'b'], h.2⟩
